import Mathlib

/-!
Verification of the yammy-go YAML merge engine.

This file shallowly embeds the Go functions of the repository's
`internal/yaml` package (UpdateYAML, detectIndentation,
updateYamlFromStruct, adjustNodeColumns, updateField, findNodes,
updateNode, updateSequence, createOrReuseNode, updateMapping,
createOrReusePair) as pure Lean functions over an explicit node tree,
and proves the specification's claims about them.

Modelling conventions:
- `yaml.Node` becomes `YNode`, a tree node carrying a metadata record
  `YMeta` (kind, style, tag, value, comments, line, column) and a list
  of children (`Content`).  Go `int` columns/lines become `Int`.
- Pointer identity is tracked by a ghost field `id : Nat`: nodes built
  by the Go code with `&yaml.Node` literals carry `id = 0`; nodes of a
  parsed tree are assumed to carry positive ids.  Mutation in place is
  modelled by returning the updated node, which keeps its `id`.
- Go `reflect.Value` data becomes the inductive `Val`.  Struct fields
  are represented with their already-resolved yaml key names in
  declaration order; map entries with their `fmt.Sprintf`-stringified
  keys in iteration order, plus a flag recording whether the map's Go
  key *type* is `string` (checked only by updateYamlFromStruct).
- Fallible Go functions return `Except String`.  Error wrapping via
  fmt.Errorf is not modelled textually; only the presence of an error
  matters to the claims.
- Go panics (index out of range on a malformed odd-length mapping
  content slice) are outside the model; the even-length hypotheses on
  mapping contents in the theorems keep the model and the Go code in
  agreement.
-/

/-- The `yaml.Kind` enumeration.  `zero` is the zero value a fresh
`&yaml.Node{}` carries before any kind is assigned. -/
inductive YKind where
  | zero
  | document
  | sequence
  | mapping
  | scalar
deriving DecidableEq, Repr

/-- The scalar metadata fields of a `yaml.Node` (everything except the
`Content` slice), plus the ghost identity `id`. -/
structure YMeta where
  id : Nat
  kind : YKind
  style : Nat
  tag : String
  value : String
  headComment : String
  lineComment : String
  footComment : String
  line : Int
  column : Int
deriving DecidableEq, Repr

/-- A `yaml.Node`: metadata plus the `Content` list of children. -/
inductive YNode where
  | mk (meta : YMeta) (content : List YNode)
deriving Repr

def YNode.meta : YNode → YMeta
  | .mk m _ => m

def YNode.content : YNode → List YNode
  | .mk _ c => c

@[simp] theorem YNode.meta_mk (m : YMeta) (c : List YNode) : (YNode.mk m c).meta = m := rfl

@[simp] theorem YNode.content_mk (m : YMeta) (c : List YNode) : (YNode.mk m c).content = c := rfl

@[simp] def YNode.id (n : YNode) : Nat := n.meta.id
@[simp] def YNode.kind (n : YNode) : YKind := n.meta.kind
@[simp] def YNode.style (n : YNode) : Nat := n.meta.style
@[simp] def YNode.tag (n : YNode) : String := n.meta.tag
@[simp] def YNode.value (n : YNode) : String := n.meta.value
@[simp] def YNode.headComment (n : YNode) : String := n.meta.headComment
@[simp] def YNode.lineComment (n : YNode) : String := n.meta.lineComment
@[simp] def YNode.footComment (n : YNode) : String := n.meta.footComment
@[simp] def YNode.line (n : YNode) : Int := n.meta.line
@[simp] def YNode.column (n : YNode) : Int := n.meta.column

/-- The metadata of a fresh `&yaml.Node{}` (all fields zero). -/
def freshMeta : YMeta :=
  { id := 0, kind := .zero, style := 0, tag := "", value := "",
    headComment := "", lineComment := "", footComment := "",
    line := 0, column := 0 }

/-- The typed data merged into the tree (a Go `reflect.Value`).
`record` is a struct with resolved field names in declaration order;
`map` carries the `%v`-stringified keys in iteration order together
with whether the Go key type is `string`; `iface`/`nilIface` are
non-nil and nil interface values; `other` is any other primitive with
its `%v` rendering. -/
inductive Val where
  | int (z : Int)
  | bool (b : Bool)
  | str (s : String)
  | other (rendered : String)
  | nilIface
  | iface (w : Val)
  | record (fields : List (String × Val))
  | map (stringKeyType : Bool) (entries : List (String × Val))
  | seq (elems : List Val)
deriving Repr

/-- `fmt.Sprintf("%d", z)` for a Go integer. -/
def intDecimal (z : Int) : String := toString z

/-- `fmt.Sprintf("%v", b)` for a Go bool. -/
def boolText (b : Bool) : String := if b then "true" else "false"

/-- findNodes: scan the alternating (key, value) content of a mapping
node for the first pair whose key node's Value equals `key`. -/
def findNodes : List YNode → String → Option (YNode × YNode)
  | k :: vn :: rest, key => if k.value = key then some (k, vn) else findNodes rest key
  | _, _ => none

/-- Replace the value node of the first pair whose key matches; this is
the pure rendering of Go's in-place mutation through the pointer
returned by findNodes. -/
def replacePairValue : List YNode → String → YNode → List YNode
  | k :: vn :: rest, key, newV =>
      if k.value = key then k :: newV :: rest
      else k :: vn :: replacePairValue rest key newV
  | l, _, _ => l

/-- `Content[0]` and `Content[1]` when the slice has at least two
elements (Go would panic on a singleton; mapping contents have even
length). -/
def firstTwo : List YNode → Option (YNode × YNode)
  | c0 :: c1 :: _ => some (c0, c1)
  | _ => none

/-- `Content[len-2]` and `Content[len-1]` when the slice has at least
two elements. -/
def lastTwo (l : List YNode) : Option (YNode × YNode) :=
  match l.reverse with
  | v :: k :: _ => some (k, v)
  | _ => none

mutual

/-- adjustNodeColumns: subtract `offset` from every column that is
strictly greater than it, recursively over the whole subtree. -/
def adjustNodeColumns (n : YNode) (offset : Int) : YNode :=
  match n with
  | .mk m c =>
      .mk { m with column := if m.column > offset then m.column - offset else m.column }
        (adjustNodeColumnsL c offset)

/-- The `for _, child := range node.Content` loop of adjustNodeColumns. -/
def adjustNodeColumnsL (l : List YNode) (offset : Int) : List YNode :=
  match l with
  | [] => []
  | x :: xs => adjustNodeColumns x offset :: adjustNodeColumnsL xs offset

end

/-- bytes.Split(content, "\n"): split the character list at every
newline (trailing piece included). -/
def splitLinesAux : List Char → List Char → List (List Char)
  | [], acc => [acc.reverse]
  | c :: cs, acc =>
      if c = '\n' then acc.reverse :: splitLinesAux cs []
      else splitLinesAux cs (c :: acc)

def splitLines (s : String) : List (List Char) := splitLinesAux s.toList []

def leadingSpaces (line : List Char) : Nat := (line.takeWhile (fun c => c = ' ')).length

/-- detectIndentation: the number of leading spaces on the first line
that starts with a space, defaulting to 2. -/
def detectIndentationLines : List (List Char) → Nat
  | [] => 2
  | line :: rest => if leadingSpaces line > 0 then leadingSpaces line else detectIndentationLines rest

def detectIndentation (content : String) : Nat :=
  detectIndentationLines (splitLines content)

/-- createOrReuseNode: reuse `originalContent[index]` when it exists,
otherwise build a fresh node copying style/column/line from the last
original child, or `parent.Column + baseIndent` when there are none. -/
def createOrReuseNode (parent : YNode) (index : Nat) (originalContent : List YNode)
    (baseIndent : Int) : YNode :=
  match originalContent.get? index with
  | some c => c
  | none =>
      match originalContent.getLast? with
      | some lastNode =>
          .mk { freshMeta with style := lastNode.style, column := lastNode.column,
                               line := lastNode.line } []
      | none => .mk { freshMeta with column := parent.column + baseIndent } []

/-- createOrReusePair: reuse the (key, value) pair matching `key` when
one exists, otherwise build a fresh pair copying style/column/line from
the last original pair, or `parent.Column + baseIndent` when there is
none. -/
def createOrReusePair (parent : YNode) (key : String) (originalContent : List YNode)
    (baseIndent : Int) : YNode × YNode :=
  match findNodes originalContent key with
  | some (kn, vn) => (kn, vn)
  | none =>
      match lastTwo originalContent with
      | some (lk, lv) =>
          (.mk { freshMeta with kind := .scalar, tag := "!!str", value := key,
                                style := lk.style, column := lk.column, line := lk.line } [],
           .mk { freshMeta with style := lv.style, column := lv.column, line := lv.line } [])
      | none =>
          (.mk { freshMeta with kind := .scalar, tag := "!!str", value := key,
                                column := parent.column + baseIndent } [],
           .mk { freshMeta with column := parent.column + baseIndent } [])

/-- The fresh (key, value) pair updateField synthesizes for a missing
key: style and column copied from the mapping's first existing pair
(`Content[0]`/`Content[1]`), else the mapping's column plus the literal
constant 2. -/
def newFieldPair (m : YNode) (name : String) : YNode × YNode :=
  match firstTwo m.content with
  | some (c0, c1) =>
      (.mk { freshMeta with kind := .scalar, tag := "!!str", value := name,
                            style := c0.style, column := c0.column } [],
       .mk { freshMeta with style := c1.style, column := c1.column } [])
  | none =>
      (.mk { freshMeta with kind := .scalar, tag := "!!str", value := name,
                            column := m.column + 2 } [],
       .mk { freshMeta with column := m.column + 2 } [])

/-- The baseIndent computation shared by updateSequence and
updateMapping: first original child's column minus the node's column,
defaulting to 2 when there are no children. -/
def contentBaseIndent (n : YNode) : Int :=
  match n.content with
  | [] => 2
  | c :: _ => c.column - n.column

/-- The kind coercion at the top of updateYamlFromStruct's body: a
non-mapping node is retagged to a mapping. -/
def coerceToMapping (m : YNode) : YNode :=
  if m.kind ≠ .mapping then .mk { m.meta with kind := .mapping, tag := "!!map" } m.content else m

mutual

/-- updateNode: reconcile one node with a value, preserving the node's
style and column (restored after the switch). -/
def updateNode (n : YNode) (v : Val) : Except String YNode :=
  match v with
  | .iface w => updateNode n w
  | .nilIface => .ok n
  | .record fields =>
      match updateYamlFromStruct n (.record fields) with
      | .error e => .error e
      | .ok n' => .ok (.mk { n'.meta with style := n.style, column := n.column } n'.content)
  | .seq elems =>
      match updateSequence n elems with
      | .error e => .error e
      | .ok n' => .ok (.mk { n'.meta with style := n.style, column := n.column } n'.content)
  | .map _skt entries =>
      match updateMapping n entries with
      | .error e => .error e
      | .ok n' => .ok (.mk { n'.meta with style := n.style, column := n.column } n'.content)
  | .int z => .ok (.mk { n.meta with kind := .scalar, tag := "!!int", value := intDecimal z } n.content)
  | .bool b => .ok (.mk { n.meta with kind := .scalar, tag := "!!bool", value := boolText b } n.content)
  | .str s => .ok (.mk { n.meta with kind := .scalar, tag := "!!str", value := s } n.content)
  | .other s => .ok (.mk { n.meta with kind := .scalar, tag := "!!str", value := s } n.content)
termination_by 4 * sizeOf v + 2
decreasing_by all_goals simp_wf <;> omega

/-- updateYamlFromStruct: unwrap a Document node (zeroing and adjusting
columns by the original root offset) before merging the struct or map
body into the mapping node. -/
def updateYamlFromStruct (node : YNode) (v : Val) : Except String YNode :=
  if node.kind = .document then
    match node.content with
    | [child] =>
        match updateStructBody
            (adjustNodeColumns (.mk { child.meta with column := 0 } child.content)
              child.meta.column) v with
        | .error e => .error e
        | .ok child' => .ok (.mk { node.meta with column := 0 } [child'])
    | _ => .error "invalid YAML structure: document node should have exactly one child"
  else
    updateStructBody node v
termination_by 4 * sizeOf v + 1
decreasing_by all_goals simp_wf <;> omega

/-- The body of updateYamlFromStruct after document unwrapping: coerce
the node to a mapping, then walk the struct fields (or map entries,
after the string-key-type check) additively.  The per-entry logic of
the Go map branch is literally the body of updateField, shared here. -/
def updateStructBody (m : YNode) (v : Val) : Except String YNode :=
  match v with
  | .record fields => updateFieldsLoop (coerceToMapping m) fields
  | .map skt entries =>
      if skt then updateFieldsLoop (coerceToMapping m) entries
      else .error "map key must be string"
  | _ => .error "data must be a struct, pointer to struct, or map[string]interface\x7b\x7d"
termination_by 4 * sizeOf v
decreasing_by all_goals simp_wf <;> omega

/-- The field loop of updateYamlFromStruct: fold updateField over the
resolved (name, value) pairs in declaration order. -/
def updateFieldsLoop (m : YNode) (fields : List (String × Val)) : Except String YNode :=
  match fields with
  | [] => .ok m
  | (name, v) :: rest =>
      match updateField m name v with
      | .error e => .error e
      | .ok m' => updateFieldsLoop m' rest
termination_by 4 * sizeOf fields + 3
decreasing_by all_goals simp_wf <;> omega

/-- updateField: find the pair named `name` and merge into its value
node, or synthesize a fresh pair (style/column copied from the first
existing pair, else `Column + 2`) appended at the end. -/
def updateField (m : YNode) (name : String) (v : Val) : Except String YNode :=
  match findNodes m.content name with
  | some (_, vn) =>
      match updateNode vn v with
      | .error e => .error e
      | .ok vn' => .ok (.mk m.meta (replacePairValue m.content name vn'))
  | none =>
      match updateNode (newFieldPair m name).2 v with
      | .error e => .error e
      | .ok vn' => .ok (.mk m.meta (m.content ++ [(newFieldPair m name).1, vn']))
termination_by 4 * sizeOf v + 3
decreasing_by all_goals simp_wf <;> omega

/-- updateSequence: rebuild the children positionally from the new
sequence, computing baseIndent from the first original child. -/
def updateSequence (n : YNode) (elems : List Val) : Except String YNode :=
  match updateSeqLoop n n.content (contentBaseIndent n) 0 elems with
  | .error e => .error e
  | .ok newContent => .ok (.mk { n.meta with kind := .sequence, tag := "!!seq" } newContent)
termination_by 4 * sizeOf elems + 3
decreasing_by all_goals simp_wf <;> omega

/-- The element loop of updateSequence. -/
def updateSeqLoop (parent : YNode) (originalContent : List YNode) (baseIndent : Int)
    (i : Nat) (elems : List Val) : Except String (List YNode) :=
  match elems with
  | [] => .ok []
  | v :: rest =>
      match updateNode (createOrReuseNode parent i originalContent baseIndent) v with
      | .error e => .error e
      | .ok c =>
          match updateSeqLoop parent originalContent baseIndent (i + 1) rest with
          | .error e => .error e
          | .ok cs => .ok (c :: cs)
termination_by 4 * sizeOf elems + 2
decreasing_by all_goals simp_wf <;> omega

/-- updateMapping: rebuild the children from the new map's entries,
reusing pairs by key from the original content; entries absent from
the new map are dropped.  No key-type check happens here. -/
def updateMapping (n : YNode) (entries : List (String × Val)) : Except String YNode :=
  match updateMapLoop n n.content (contentBaseIndent n) entries with
  | .error e => .error e
  | .ok newContent => .ok (.mk { n.meta with kind := .mapping, tag := "!!map" } newContent)
termination_by 4 * sizeOf entries + 3
decreasing_by all_goals simp_wf <;> omega

/-- The entry loop of updateMapping. -/
def updateMapLoop (parent : YNode) (originalContent : List YNode) (baseIndent : Int)
    (entries : List (String × Val)) : Except String (List YNode) :=
  match entries with
  | [] => .ok []
  | (k, v) :: rest =>
      match createOrReusePair parent k originalContent baseIndent with
      | (kn, vn) =>
          match updateNode vn v with
          | .error e => .error e
          | .ok vn' =>
              match updateMapLoop parent originalContent baseIndent rest with
              | .error e => .error e
              | .ok tail => .ok (kn :: vn' :: tail)
termination_by 4 * sizeOf entries + 2
decreasing_by all_goals simp_wf <;> omega

end

/-- The tree-level portion of UpdateYAML: merge, then force the root
Document node's column and its first child's column to 0.  Parsing and
encoding are the external yaml.v3 collaborators. -/
def updateYAMLTree (root : YNode) (v : Val) : Except String YNode :=
  match updateYamlFromStruct root v with
  | .error e => .error e
  | .ok root' =>
      let root'' := YNode.mk { root'.meta with column := 0 } root'.content
      .ok (match root''.content with
        | c :: rest => YNode.mk root''.meta (YNode.mk { c.meta with column := 0 } c.content :: rest)
        | [] => root'')

/-! ### Metadata preservation infrastructure -/

/-- updateField only rewrites the content of the mapping node; its
metadata record (id, kind, tag, style, column, comments) is untouched. -/
theorem updateField_meta {m : YNode} {name : String} {v : Val} {m' : YNode}
    (h : updateField m name v = .ok m') : m'.meta = m.meta := by
  rw [updateField] at h
  repeat' split at h
  all_goals first
    | (simp only [Except.ok.injEq] at h; subst h; simp)
    | simp at h

theorem updateFieldsLoop_meta {fields : List (String × Val)} {m m' : YNode}
    (h : updateFieldsLoop m fields = .ok m') : m'.meta = m.meta := by
  induction fields generalizing m with
  | nil =>
      rw [updateFieldsLoop] at h
      simp only [Except.ok.injEq] at h
      subst h
      rfl
  | cons p rest ih =>
      rw [updateFieldsLoop] at h
      split at h
      · simp at h
      · rename_i m1 hfield
        exact (ih h).trans (updateField_meta hfield)

theorem coerceToMapping_eq_self {m : YNode} (h : m.kind = .mapping) : coerceToMapping m = m := by
  simp only [YNode.kind] at h
  rw [coerceToMapping]
  simp [h]

theorem coerceToMapping_eq_coerced {m : YNode} (h : ¬m.kind = .mapping) :
    coerceToMapping m = .mk { m.meta with kind := .mapping, tag := "!!map" } m.content := by
  simp only [YNode.kind] at h
  rw [coerceToMapping]
  simp [h]

/-- The non-document body of updateYamlFromStruct keeps every metadata
field of the target node except kind (which becomes Mapping) and tag. -/
theorem updateStructBody_meta {m m' : YNode} {v : Val}
    (h : updateStructBody m v = .ok m') :
    m'.id = m.id ∧ m'.style = m.style ∧ m'.value = m.value ∧ m'.line = m.line ∧
    m'.column = m.column ∧ m'.headComment = m.headComment ∧
    m'.lineComment = m.lineComment ∧ m'.footComment = m.footComment ∧
    m'.kind = .mapping := by
  have main : ∀ l, updateFieldsLoop (coerceToMapping m) l = .ok m' →
      m'.id = m.id ∧ m'.style = m.style ∧ m'.value = m.value ∧ m'.line = m.line ∧
      m'.column = m.column ∧ m'.headComment = m.headComment ∧
      m'.lineComment = m.lineComment ∧ m'.footComment = m.footComment ∧
      m'.kind = .mapping := by
    intro l hl
    have hm := updateFieldsLoop_meta hl
    by_cases hk : m.kind = .mapping
    · rw [coerceToMapping_eq_self hk] at hm
      simp only [YNode.kind] at hk
      simp [hm, hk]
    · rw [coerceToMapping_eq_coerced hk] at hm
      simp only [YNode.meta_mk] at hm
      simp [hm]
  cases v <;> simp only [updateStructBody] at h
  all_goals first
    | exact Except.noConfusion h
    | exact main _ h
    | (split at h
       · exact main _ h
       · exact Except.noConfusion h)

/-- updateNode preserves the target node's ghost identity, style,
column, line, and all three comment fields, for every value shape:
style and column are saved and restored around the switch, and the
remaining fields are never written. -/
theorem updateNode_meta {n n' : YNode} {v : Val}
    (h : updateNode n v = .ok n') :
    n'.id = n.id ∧ n'.style = n.style ∧ n'.column = n.column ∧ n'.line = n.line ∧
    n'.headComment = n.headComment ∧ n'.lineComment = n.lineComment ∧
    n'.footComment = n.footComment := by
  cases v with
  | iface w =>
      rw [updateNode] at h
      exact updateNode_meta h
  | nilIface =>
      rw [updateNode] at h
      simp only [Except.ok.injEq] at h
      subst h
      simp
  | int z =>
      rw [updateNode] at h
      simp only [Except.ok.injEq] at h
      subst h
      simp
  | bool b =>
      rw [updateNode] at h
      simp only [Except.ok.injEq] at h
      subst h
      simp
  | str s =>
      rw [updateNode] at h
      simp only [Except.ok.injEq] at h
      subst h
      simp
  | other s =>
      rw [updateNode] at h
      simp only [Except.ok.injEq] at h
      subst h
      simp
  | record fields =>
      rw [updateNode] at h
      split at h
      · simp at h
      · rename_i n1 hu
        simp only [Except.ok.injEq] at h
        subst h
        rw [updateYamlFromStruct] at hu
        split at hu
        · split at hu
          · split at hu
            · simp at hu
            · simp only [Except.ok.injEq] at hu
              subst hu
              simp
          · simp at hu
        · have := updateStructBody_meta hu
          simp_all
  | map skt entries =>
      rw [updateNode] at h
      split at h
      · simp at h
      · rename_i n1 hu
        simp only [Except.ok.injEq] at h
        subst h
        rw [updateMapping] at hu
        split at hu
        · simp at hu
        · simp only [Except.ok.injEq] at hu
          subst hu
          simp
  | seq elems =>
      rw [updateNode] at h
      split at h
      · simp at h
      · rename_i n1 hu
        simp only [Except.ok.injEq] at h
        subst h
        rw [updateSequence] at hu
        split at hu
        · simp at hu
        · simp only [Except.ok.injEq] at hu
          subst hu
          simp
termination_by sizeOf v
decreasing_by
  subst_vars
  simp

/-! ### Pair structure of mapping contents -/

/-- The (key, value) pairs of a mapping node's alternating content. -/
def pairs : List YNode → List (YNode × YNode)
  | k :: vn :: rest => (k, vn) :: pairs rest
  | _ => []

theorem findNodes_spec : ∀ {l : List YNode} {key : String} {kn vn : YNode},
    findNodes l key = some (kn, vn) →
    kn.value = key ∧ (kn, vn) ∈ pairs l ∧ kn ∈ l ∧ vn ∈ l
  | [], key, kn, vn, h => by
      simp [findNodes] at h
  | [k], key, kn, vn, h => by
      simp [findNodes] at h
  | k :: v :: rest, key, kn, vn, h => by
      rw [findNodes] at h
      split at h
      · simp only [Option.some.injEq, Prod.mk.injEq] at h
        obtain ⟨h1, h2⟩ := h
        subst h1
        subst h2
        rename_i hv
        refine ⟨hv, ?_, ?_, ?_⟩ <;> simp [pairs]
      · have := findNodes_spec h
        refine ⟨this.1, ?_, ?_, ?_⟩
        · simp [pairs, this.2.1]
        · simp [this.2.2.1]
        · simp [this.2.2.2]

theorem findNodes_none : ∀ {l : List YNode} {key : String},
    findNodes l key = none → ∀ p ∈ pairs l, p.1.value ≠ key
  | [], key, h => by simp [pairs]
  | [k], key, h => by simp [pairs]

  | k :: v :: rest, key, h => by
      rw [findNodes] at h
      split at h
      · exact Option.noConfusion h
      · intro p hp
        rw [pairs] at hp
        simp only [List.mem_cons] at hp
        rcases hp with hp | hp
        · subst hp
          rename_i hv
          simpa using hv
        · exact findNodes_none h p hp

/-- C5 helper: updateNode on an integer always succeeds, with the
explicit result node. -/
theorem updateNode_int (n : YNode) (z : Int) :
    updateNode n (Val.int z) =
      .ok (.mk { n.meta with kind := .scalar, tag := "!!int", value := intDecimal z } n.content) := by
  rw [updateNode]

/-- updateNode with a nil interface value is the identity. -/
theorem updateNode_nilIface (n : YNode) : updateNode n Val.nilIface = .ok n := by
  rw [updateNode]

/-- C5: For every merge of an integer scalar value into a node, the
node's kind becomes Scalar, its tag "!!int", its value the integer's
decimal text (fmt.Sprintf %d), and its style and column keep their
pre-merge values. -/
theorem C5_int_scalar_merge (n : YNode) (z : Int) :
    ∃ n', updateNode n (Val.int z) = .ok n' ∧
      n'.kind = .scalar ∧ n'.tag = "!!int" ∧ n'.value = intDecimal z ∧
      n'.style = n.style ∧ n'.column = n.column := by
  refine ⟨_, updateNode_int n z, ?_, ?_, ?_, ?_, ?_⟩ <;> simp

/-! ### createOrReusePair / createOrReuseNode facts -/

theorem createOrReusePair_found {parent : YNode} {key : String} {oc : List YNode}
    {bi : Int} {kn vn : YNode} (h : findNodes oc key = some (kn, vn)) :
    createOrReusePair parent key oc bi = (kn, vn) := by
  rw [createOrReusePair, h]

theorem createOrReusePair_key {parent : YNode} (key : String) (oc : List YNode) (bi : Int) :
    (createOrReusePair parent key oc bi).1.value = key := by
  rw [createOrReusePair]
  split
  · rename_i kn vn h
    exact (findNodes_spec h).1
  · split <;> simp

theorem updateMapLoop_keys {parent : YNode} {oc : List YNode} {bi : Int} :
    ∀ {entries : List (String × Val)} {out : List YNode},
    updateMapLoop parent oc bi entries = .ok out →
    (pairs out).map (fun p => p.1.value) = entries.map Prod.fst
  | [], out, h => by
      rw [updateMapLoop] at h
      simp only [Except.ok.injEq] at h
      subst h
      simp [pairs]
  | (k, v) :: rest, out, h => by
      rw [updateMapLoop] at h
      rcases hcp : createOrReusePair parent k oc bi with ⟨kn, vn⟩
      simp only [hcp] at h
      cases hnode : updateNode vn v with
      | error e =>
        simp only [hnode] at h
        exact Except.noConfusion h
      | ok vn' =>
        simp only [hnode] at h
        cases htail : updateMapLoop parent oc bi rest with
        | error e =>
          simp only [htail] at h
          exact Except.noConfusion h
        | ok tail =>
          simp only [htail, Except.ok.injEq] at h
          subst h
          have ih := updateMapLoop_keys htail
          have hk : kn.value = k := by
            have := @createOrReusePair_key parent k oc bi
            rw [hcp] at this
            exact this
          simp only [YNode.value] at hk ih
          simp [pairs, hk, ih]

/-- C10 loop lemma: a (key, nil-interface) entry whose key is found in
the original content puts the original pair back unchanged. -/
theorem updateMapLoop_nil_entry {parent : YNode} {oc : List YNode} {bi : Int} :
    ∀ {entries : List (String × Val)} {out : List YNode} {k : String} {kn vn : YNode},
    updateMapLoop parent oc bi entries = .ok out →
    (k, Val.nilIface) ∈ entries →
    findNodes oc k = some (kn, vn) →
    (kn, vn) ∈ pairs out
  | [], out, k, kn, vn, h, hmem, hfind => by simp at hmem
  | (k', v') :: rest, out, k, kn, vn, h, hmem, hfind => by
      rw [updateMapLoop] at h
      rcases hcp : createOrReusePair parent k' oc bi with ⟨kn', vn0⟩
      simp only [hcp] at h
      cases hnode : updateNode vn0 v' with
      | error e =>
        simp only [hnode] at h
        exact Except.noConfusion h
      | ok vn' =>
        simp only [hnode] at h
        cases htail : updateMapLoop parent oc bi rest with
        | error e =>
          simp only [htail] at h
          exact Except.noConfusion h
        | ok tail =>
          simp only [htail, Except.ok.injEq] at h
          subst h
          simp only [List.mem_cons, Prod.mk.injEq] at hmem
          rcases hmem with ⟨hk, hv⟩ | hmem
          · subst hk
            subst hv
            rw [createOrReusePair_found hfind] at hcp
            simp only [Prod.mk.injEq] at hcp
            obtain ⟨h1, h2⟩ := hcp
            subst h1
            subst h2
            rw [updateNode_nilIface] at hnode
            simp only [Except.ok.injEq] at hnode
            subst hnode
            simp [pairs]
          · have := updateMapLoop_nil_entry htail hmem hfind
            simp [pairs, this]

/-- C10: For a Mapping merge with interface-typed values, an entry
whose value is a nil interface is merged without error and leaves the
target value node (and its key node) completely unchanged in the
result: the old pair survives under the key instead of being replaced
by a null. -/
theorem C10_nil_interface_noop {n n' : YNode} {entries : List (String × Val)}
    {k : String} {kn vn : YNode}
    (hok : updateMapping n entries = .ok n')
    (hmem : (k, Val.nilIface) ∈ entries)
    (hfind : findNodes n.content k = some (kn, vn)) :
    updateNode vn Val.nilIface = .ok vn ∧ (kn, vn) ∈ pairs n'.content := by
  refine ⟨updateNode_nilIface vn, ?_⟩
  rw [updateMapping] at hok
  split at hok
  · exact Except.noConfusion hok
  · rename_i out hloop
    simp only [Except.ok.injEq] at hok
    subst hok
    simpa using updateMapLoop_nil_entry hloop hmem hfind

/-- C3: For every Mapping merge, the key texts of the resulting node's
pairs are exactly the new mapping's keys (in iteration order): every
key of the new mapping appears, and every original pair whose key is
absent from the new mapping is dropped from the children. -/
theorem C3_mapping_key_replacement {n n' : YNode} {entries : List (String × Val)}
    (hok : updateMapping n entries = .ok n') :
    (pairs n'.content).map (fun p => p.1.value) = entries.map Prod.fst ∧
    ∀ p ∈ pairs n.content, p.1.value ∉ entries.map Prod.fst → p ∉ pairs n'.content := by
  rw [updateMapping] at hok
  cases hloop : updateMapLoop n n.content (contentBaseIndent n) entries with
  | error e =>
      rw [hloop] at hok
      exact Except.noConfusion hok
  | ok out =>
      rw [hloop] at hok
      simp only [Except.ok.injEq] at hok
      subst hok
      have hkeys := updateMapLoop_keys hloop
      constructor
      · simpa using hkeys
      · intro p hp habs hpmem
        refine habs ?_
        rw [← hkeys]
        simp only [YNode.content_mk] at hpmem
        exact List.mem_map_of_mem _ hpmem

/-! ### C2: Record merges are additive -/

theorem coerceToMapping_content (m : YNode) : (coerceToMapping m).content = m.content := by
  rw [coerceToMapping]
  split <;> simp

theorem replacePairValue_length : ∀ (l : List YNode) (key : String) (w : YNode),
    (replacePairValue l key w).length = l.length
  | k :: vn :: rest, key, w => by
      rw [replacePairValue]
      split
      · simp
      · simp [replacePairValue_length rest key w]
  | [], _, _ => rfl
  | [k], _, _ => rfl

theorem pairs_mem_replacePairValue : ∀ {l : List YNode} {key : String} {w : YNode}
    {p : YNode × YNode}, p ∈ pairs l → p.1.value ≠ key →
    p ∈ pairs (replacePairValue l key w)
  | [], key, w, p, hp, hne => by simp [pairs] at hp
  | [k], key, w, p, hp, hne => by simp [pairs] at hp
  | k :: vn :: rest, key, w, p, hp, hne => by
      rw [pairs] at hp
      rw [replacePairValue]
      simp only [List.mem_cons] at hp
      split
      · rename_i hk
        rcases hp with hp | hp
        · exfalso
          apply hne
          rw [hp]
          exact hk
        · rw [pairs]
          simp only [List.mem_cons]
          exact Or.inr hp
      · rcases hp with hp | hp
        · rw [pairs]
          simp [hp]
        · rw [pairs]
          simp only [List.mem_cons]
          exact Or.inr (pairs_mem_replacePairValue hp hne)

theorem pairs_append_pair : ∀ {l : List YNode}, l.length % 2 = 0 → ∀ (a b : YNode),
    pairs (l ++ [a, b]) = pairs l ++ [(a, b)]
  | [], _, a, b => by simp [pairs]
  | [k], h, a, b => by simp at h
  | k :: vn :: rest, h, a, b => by
      have hr : rest.length % 2 = 0 := by
        simp only [List.length_cons] at h
        omega
      simp only [List.cons_append, List.append_eq, pairs]
      rw [pairs_append_pair hr a b]

/-- The two possible content rewrites updateField performs. -/
theorem updateField_content {m : YNode} {name : String} {v : Val} {m' : YNode}
    (h : updateField m name v = .ok m') :
    (∃ kn vn vn', findNodes m.content name = some (kn, vn) ∧ updateNode vn v = .ok vn' ∧
       m'.content = replacePairValue m.content name vn') ∨
    (∃ vn', findNodes m.content name = none ∧ updateNode (newFieldPair m name).2 v = .ok vn' ∧
       m'.content = m.content ++ [(newFieldPair m name).1, vn']) := by
  rw [updateField] at h
  cases hf : findNodes m.content name with
  | some kv =>
      rcases kv with ⟨kn, vn⟩
      simp only [hf] at h
      cases hn : updateNode vn v with
      | error e =>
          simp only [hn] at h
          exact Except.noConfusion h
      | ok vn' =>
          simp only [hn, Except.ok.injEq] at h
          subst h
          exact Or.inl ⟨kn, vn, vn', rfl, hn, by simp⟩
  | none =>
      simp only [hf] at h
      cases hn : updateNode (newFieldPair m name).2 v with
      | error e =>
          simp only [hn] at h
          exact Except.noConfusion h
      | ok vn' =>
          simp only [hn, Except.ok.injEq] at h
          subst h
          exact Or.inr ⟨vn', rfl, rfl, by simp⟩

theorem updateField_even {m : YNode} {name : String} {v : Val} {m' : YNode}
    (h : updateField m name v = .ok m') (he : m.content.length % 2 = 0) :
    m'.content.length % 2 = 0 := by
  rcases updateField_content h with ⟨kn, vn, vn', _, _, hc⟩ | ⟨vn', _, _, hc⟩
  · rw [hc, replacePairValue_length]
    exact he
  · rw [hc]
    simp only [List.length_append, List.length_cons, List.length_nil]
    omega

theorem updateField_keeps_pair {m : YNode} {name : String} {v : Val} {m' : YNode}
    {p : YNode × YNode}
    (h : updateField m name v = .ok m') (he : m.content.length % 2 = 0)
    (hp : p ∈ pairs m.content) (hne : p.1.value ≠ name) :
    p ∈ pairs m'.content := by
  rcases updateField_content h with ⟨kn, vn, vn', _, _, hc⟩ | ⟨vn', _, _, hc⟩
  · rw [hc]
    exact pairs_mem_replacePairValue hp hne
  · rw [hc, pairs_append_pair he]
    simp [hp]

theorem updateFieldsLoop_keeps_pair :
    ∀ {fields : List (String × Val)} {m m' : YNode} {p : YNode × YNode},
    updateFieldsLoop m fields = .ok m' → m.content.length % 2 = 0 →
    p ∈ pairs m.content → p.1.value ∉ fields.map Prod.fst →
    p ∈ pairs m'.content
  | [], m, m', p, h, he, hp, habs => by
      rw [updateFieldsLoop] at h
      simp only [Except.ok.injEq] at h
      subst h
      exact hp
  | (name, v) :: rest, m, m', p, h, he, hp, habs => by
      rw [updateFieldsLoop] at h
      cases hf : updateField m name v with
      | error e =>
          rw [hf] at h
          exact Except.noConfusion h
      | ok m1 =>
          rw [hf] at h
          simp only [List.map_cons, List.mem_cons] at habs
          push_neg at habs
          exact updateFieldsLoop_keeps_pair h (updateField_even hf he)
            (updateField_keeps_pair hf he hp habs.1) habs.2

/-- C2: For every Record merge into a mapping node, every original
(key, value) pair whose key is not among the Record's resolved field
names is still present, with both nodes unmodified, after the merge:
Record merges never delete existing entries. -/
theorem C2_record_additive {m m' : YNode} {fields : List (String × Val)}
    {kn vn : YNode}
    (hok : updateStructBody m (Val.record fields) = .ok m')
    (heven : m.content.length % 2 = 0)
    (hmem : (kn, vn) ∈ pairs m.content)
    (habs : kn.value ∉ fields.map Prod.fst) :
    (kn, vn) ∈ pairs m'.content := by
  simp only [updateStructBody] at hok
  have hc : (coerceToMapping m).content = m.content := coerceToMapping_content m
  refine updateFieldsLoop_keeps_pair hok ?_ ?_ habs
  · rw [hc]
    exact heven
  · rw [hc]
    exact hmem

/-! ### C6: style/column of freshly created pairs -/

/-- C6 (amended): when updateField synthesizes a new pair, style and
column come from the mapping's first existing pair when there is one;
otherwise both columns are the mapping's column plus the hardcoded
constant 2 — not the detected indent width. -/
theorem C6_new_pair_style_amended {m : YNode} {name : String} {v : Val} {m' : YNode}
    (hok : updateField m name v = .ok m')
    (hnew : findNodes m.content name = none)
    (heven : m.content.length % 2 = 0) :
    ∃ kn vn', m'.content = m.content ++ [kn, vn'] ∧
      kn.kind = .scalar ∧ kn.tag = "!!str" ∧ kn.value = name ∧
      ((m.content = [] ∧ kn.column = m.column + 2 ∧ vn'.column = m.column + 2) ∨
       (∃ c0 c1 rest, m.content = c0 :: c1 :: rest ∧
          kn.style = c0.style ∧ kn.column = c0.column ∧
          vn'.style = c1.style ∧ vn'.column = c1.column)) := by
  rcases updateField_content hok with ⟨kn, vn, vn', hf, _, _⟩ | ⟨vn', _, hnode, hc⟩
  · rw [hnew] at hf
    exact Option.noConfusion hf
  · refine ⟨(newFieldPair m name).1, vn', hc, ?_⟩
    have hmeta := updateNode_meta hnode
    rcases hcontent : m.content with _ | ⟨c0, rest0⟩
    · rw [newFieldPair, hcontent] at hmeta ⊢
      simp only [firstTwo] at hmeta ⊢
      refine ⟨by simp, by simp, by simp, Or.inl ⟨trivial, by simp, ?_⟩⟩
      rw [hmeta.2.2.1]
      simp
    · rcases rest0 with _ | ⟨c1, rest1⟩
      · rw [hcontent] at heven
        simp at heven
      · rw [newFieldPair, hcontent] at hmeta ⊢
        simp only [firstTwo] at hmeta ⊢
        refine ⟨by simp, by simp, by simp,
          Or.inr ⟨c0, c1, rest1, rfl, by simp, by simp, ?_, ?_⟩⟩
        · rw [hmeta.2.1]
          simp
        · rw [hmeta.2.2.1]
          simp

def sourceFourIndent : String := "root:\n    nested: 1\n"

def emptyMapNode : YNode := .mk { freshMeta with id := 1, kind := .mapping, tag := "!!map" } []

/-- C6 counterexample: with a source whose detected indent width is 4,
updateField on an empty mapping of column 0 places the new pair at
column 0 + 2, not 0 + 4 — the constant 2 is hardcoded; the detected
indent width is only handed to the encoder. -/
theorem C6_counterexample :
    detectIndentation sourceFourIndent = 4 ∧
    (updateField emptyMapNode "x" (Val.int 1)).map (fun m' => m'.content.map YNode.column) =
      .ok [2, 2] ∧
    (2 : Int) ≠ emptyMapNode.column + (detectIndentation sourceFourIndent : Int) := by
  refine ⟨by decide, ?_, by decide⟩
  simp [updateField, findNodes, emptyMapNode, newFieldPair, firstTwo, updateNode, freshMeta,
    Except.map]

/-! ### C4: sequence positional reuse -/

theorem createOrReuseNode_reuse {parent : YNode} {i : Nat} {oc : List YNode} {bi : Int}
    {c : YNode} (h : oc.get? i = some c) :
    createOrReuseNode parent i oc bi = c := by
  rw [createOrReuseNode, h]

theorem createOrReuseNode_fresh_id {parent : YNode} {i : Nat} {oc : List YNode} {bi : Int}
    (h : oc.length ≤ i) :
    (createOrReuseNode parent i oc bi).id = 0 := by
  rw [createOrReuseNode]
  have hnone : oc.get? i = none := List.get?_eq_none.mpr h
  simp only [hnone]
  split <;> simp [freshMeta]

/-- The element loop: output length and the per-index relationship to
createOrReuseNode / updateNode. -/
theorem updateSeqLoop_spec {parent : YNode} {oc : List YNode} {bi : Int} :
    ∀ {i : Nat} {elems : List Val} {out : List YNode},
    updateSeqLoop parent oc bi i elems = .ok out →
    out.length = elems.length ∧
    ∀ j v, elems.get? j = some v →
      ∃ c, out.get? j = some c ∧
        updateNode (createOrReuseNode parent (i + j) oc bi) v = .ok c
  | i, [], out, h => by
      rw [updateSeqLoop] at h
      simp only [Except.ok.injEq] at h
      subst h
      exact ⟨rfl, by simp⟩
  | i, v :: rest, out, h => by
      rw [updateSeqLoop] at h
      cases hn : updateNode (createOrReuseNode parent i oc bi) v with
      | error e =>
          simp only [hn] at h
          exact Except.noConfusion h
      | ok c =>
          simp only [hn] at h
          cases htail : updateSeqLoop parent oc bi (i + 1) rest with
          | error e =>
              simp only [htail] at h
              exact Except.noConfusion h
          | ok cs =>
              simp only [htail, Except.ok.injEq] at h
              subst h
              obtain ⟨hlen, hidx⟩ := updateSeqLoop_spec htail
              refine ⟨by simp [hlen], ?_⟩
              intro j w hj
              cases j with
              | zero =>
                  simp only [List.get?_cons_zero, Option.some.injEq] at hj
                  subst hj
                  exact ⟨c, rfl, by simpa using hn⟩
              | succ j' =>
                  simp only [List.get?_cons_succ] at hj
                  obtain ⟨c', hc', hn'⟩ := hidx j' w hj
                  refine ⟨c', by simpa using hc', ?_⟩
                  have : i + 1 + j' = i + (j' + 1) := by omega
                  rw [this] at hn'
                  exact hn'

/-- The ghost identities of the loop output: reused positions keep the
original child's id, created positions carry the fresh id 0. -/
theorem updateSeqLoop_ids {parent : YNode} {oc : List YNode} {bi : Int} :
    ∀ {i : Nat} {elems : List Val} {out : List YNode},
    updateSeqLoop parent oc bi i elems = .ok out →
    out.map YNode.id =
      ((oc.drop i).take elems.length).map YNode.id ++
        List.replicate (elems.length - (oc.length - i)) 0
  | i, [], out, h => by
      rw [updateSeqLoop] at h
      simp only [Except.ok.injEq] at h
      subst h
      simp
  | i, v :: rest, out, h => by
      rw [updateSeqLoop] at h
      cases hn : updateNode (createOrReuseNode parent i oc bi) v with
      | error e =>
          simp only [hn] at h
          exact Except.noConfusion h
      | ok c =>
          simp only [hn] at h
          cases htail : updateSeqLoop parent oc bi (i + 1) rest with
          | error e =>
              simp only [htail] at h
              exact Except.noConfusion h
          | ok cs =>
              simp only [htail, Except.ok.injEq] at h
              subst h
              have ih := updateSeqLoop_ids htail
              have hid := (updateNode_meta hn).1
              by_cases hlt : i < oc.length
              · have hreuse : createOrReuseNode parent i oc bi = oc.get ⟨i, hlt⟩ :=
                  createOrReuseNode_reuse (List.get?_eq_get hlt)
                rw [hreuse] at hid
                have harith : rest.length + 1 - (oc.length - i) =
                    rest.length - (oc.length - (i + 1)) := by omega
                have hdrop : oc.drop i = oc.get ⟨i, hlt⟩ :: oc.drop (i + 1) :=
                  List.drop_eq_get_cons hlt
                simp only [List.length_cons, List.map_cons]
                rw [ih, hdrop, List.take_succ_cons, List.map_cons, harith, hid]
                simp
              · push_neg at hlt
                have hz : oc.length - i = 0 := by omega
                have hz1 : oc.length - (i + 1) = 0 := by omega
                have hd : oc.drop i = [] := List.drop_eq_nil_of_le hlt
                have hd1 : oc.drop (i + 1) = [] := List.drop_eq_nil_of_le (by omega)
                have hfresh : (createOrReuseNode parent i oc bi).id = 0 :=
                  createOrReuseNode_fresh_id hlt
                rw [hfresh] at hid
                simp only [List.length_cons, List.map_cons]
                rw [ih, hd, hd1, hz, hz1, hid]
                simp [List.replicate_succ]

/-- C4: For every successful Sequence merge of N elements into a node
with M original children: the result has exactly N children in the new
sequence's order; index i < min(N, M) is the original child at index i
mutated in place (same ghost identity, purely positional reuse);
indices in [M, N) are freshly created (identity 0); with all original
identities nonzero, exactly N - M fresh children appear; and original
children at indices ≥ N are dropped. -/
theorem C4_sequence_positional_reuse {n n' : YNode} {elems : List Val}
    (hok : updateSequence n elems = .ok n') :
    n'.content.length = elems.length ∧
    (∀ i v c, elems.get? i = some v → n.content.get? i = some c →
       ∃ c', n'.content.get? i = some c' ∧ updateNode c v = .ok c' ∧ c'.id = c.id) ∧
    (∀ i v, elems.get? i = some v → n.content.length ≤ i →
       ∃ c', n'.content.get? i = some c' ∧ c'.id = 0) ∧
    ((∀ c ∈ n.content, c.id ≠ 0) →
       (n'.content.map YNode.id).count 0 = elems.length - n.content.length) ∧
    (∀ j c, n.content.get? j = some c → elems.length ≤ j →
       (n.content.map YNode.id).Nodup → (∀ d ∈ n.content, d.id ≠ 0) →
       c.id ∉ n'.content.map YNode.id) := by
  rw [updateSequence] at hok
  cases hloop : updateSeqLoop n n.content (contentBaseIndent n) 0 elems with
  | error e =>
      rw [hloop] at hok
      exact Except.noConfusion hok
  | ok out =>
      rw [hloop] at hok
      simp only [Except.ok.injEq] at hok
      subst hok
      obtain ⟨hlen, hidx⟩ := updateSeqLoop_spec hloop
      have hids := updateSeqLoop_ids hloop
      simp only [List.drop_zero, Nat.sub_zero] at hids
      simp only [YNode.content_mk]
      refine ⟨hlen, ?_, ?_, ?_, ?_⟩
      · intro i v c hv hc
        obtain ⟨c', hc', hn'⟩ := hidx i v hv
        rw [Nat.zero_add] at hn'
        rw [createOrReuseNode_reuse hc] at hn'
        exact ⟨c', hc', hn', ((updateNode_meta hn').1)⟩
      · intro i v hv hge
        obtain ⟨c', hc', hn'⟩ := hidx i v hv
        rw [Nat.zero_add] at hn'
        have hid := (updateNode_meta hn').1
        rw [createOrReuseNode_fresh_id hge] at hid
        exact ⟨c', hc', hid⟩
      · intro hnz
        rw [hids, List.count_append, List.count_replicate_self]
        have hzero : ((n.content.take elems.length).map YNode.id).count 0 = 0 := by
          rw [List.count_eq_zero]
          intro hmem
          simp only [List.mem_map] at hmem
          obtain ⟨d, hd, hdid⟩ := hmem
          exact hnz d (List.take_subset _ _ hd) hdid
        rw [hzero, Nat.zero_add]
      · intro j c hc hge hnodup hnz
        intro hmem
        rw [hids] at hmem
        rw [List.mem_append] at hmem
        rcases hmem with hmem | hmem
        · -- c.id appears among the reused prefix: contradicts Nodup
          have hcount : 2 ≤ (n.content.map YNode.id).count c.id := by
            have hsplit : n.content.map YNode.id =
                (n.content.map YNode.id).take elems.length ++
                  (n.content.map YNode.id).drop elems.length := by
              rw [List.take_append_drop]
            rw [hsplit, List.count_append]
            have h1 : 1 ≤ ((n.content.map YNode.id).take elems.length).count c.id := by
              rw [Nat.one_le_iff_ne_zero, Ne, List.count_eq_zero]
              intro hnot
              rw [← List.map_take] at hnot
              exact hnot hmem
            have h2 : 1 ≤ ((n.content.map YNode.id).drop elems.length).count c.id := by
              rw [Nat.one_le_iff_ne_zero, Ne, List.count_eq_zero]
              intro hnot
              refine hnot ?_
              have : ((n.content.map YNode.id).drop elems.length).get?
                  (j - elems.length) = some c.id := by
                rw [List.get?_drop]
                have : elems.length + (j - elems.length) = j := by omega
                rw [this, List.get?_map, hc]
                rfl
              exact List.get?_mem this
            omega
          have := List.nodup_iff_count_le_one.mp hnodup c.id
          omega
        · -- c.id = 0 contradicts the nonzero-identity hypothesis
          exact hnz c (List.get?_mem hc) (List.eq_of_mem_replicate hmem)

/-! ### C7: error characterization -/

mutual

/-- No node of the tree is a Document node (true of every proper
descendant of a parsed root). -/
def docFree : YNode → Bool
  | .mk m c => (m.kind != .document) && docFreeL c

def docFreeL : List YNode → Bool
  | [] => true
  | x :: xs => docFree x && docFreeL xs

end

theorem docFree_eq (m : YMeta) (c : List YNode) :
    docFree (.mk m c) = ((m.kind != .document) && docFreeL c) := by
  rw [docFree]

theorem docFree_kind {n : YNode} (h : docFree n = true) : ¬n.kind = .document := by
  cases n with
  | mk m c =>
      rw [docFree_eq] at h
      simp only [Bool.and_eq_true, bne_iff_ne] at h
      simpa using h.1

theorem docFree_content {n : YNode} (h : docFree n = true) : docFreeL n.content = true := by
  cases n with
  | mk m c =>
      rw [docFree_eq] at h
      simp only [Bool.and_eq_true] at h
      simpa using h.2

theorem docFree_of_parts {m : YMeta} {c : List YNode} (hk : ¬m.kind = .document)
    (hc : docFreeL c = true) : docFree (.mk m c) = true := by
  rw [docFree_eq]
  simp [hk, hc]

theorem docFreeL_mem : ∀ {l : List YNode}, docFreeL l = true → ∀ {x : YNode}, x ∈ l →
    docFree x = true
  | [], h, x, hx => by simp at hx
  | y :: ys, h, x, hx => by
      rw [docFreeL] at h
      simp only [Bool.and_eq_true] at h
      rcases List.mem_cons.mp hx with hx | hx
      · subst hx
        exact h.1
      · exact docFreeL_mem h.2 hx

theorem docFreeL_append : ∀ {l1 l2 : List YNode},
    docFreeL (l1 ++ l2) = (docFreeL l1 && docFreeL l2)
  | [], l2 => by simp [docFreeL]
  | x :: xs, l2 => by
      simp only [List.cons_append]
      rw [docFreeL, docFreeL, docFreeL_append, Bool.and_assoc]

theorem docFreeL_cons (x : YNode) (xs : List YNode) :
    docFreeL (x :: xs) = (docFree x && docFreeL xs) := by
  rw [docFreeL]

theorem docFreeL_replacePairValue : ∀ {l : List YNode} {key : String} {w : YNode},
    docFreeL l = true → docFree w = true → docFreeL (replacePairValue l key w) = true
  | [], key, w, hl, hw => hl
  | [k], key, w, hl, hw => hl
  | k :: vn :: rest, key, w, hl, hw => by
      rw [replacePairValue]
      rw [docFreeL, docFreeL] at hl
      simp only [Bool.and_eq_true] at hl
      split
      · rw [docFreeL, docFreeL]
        simp [hl.1, hw, hl.2.2]
      · rw [docFreeL, docFreeL]
        simp only [Bool.and_eq_true]
        exact ⟨hl.1, hl.2.1, docFreeL_replacePairValue hl.2.2 hw⟩

/-- Both nodes of a freshly synthesized updateField pair are Document-free. -/
theorem docFree_newFieldPair (m : YNode) (name : String) :
    docFree (newFieldPair m name).1 = true ∧ docFree (newFieldPair m name).2 = true := by
  rw [newFieldPair]
  split <;> constructor <;> rw [docFree] <;> rfl

/-- Values updateYamlFromStruct accepts: a Record, or a Mapping whose
Go key type is string. -/
def isRecordOrStringMap : Val → Bool
  | .record _ => true
  | .map skt _ => skt
  | _ => false

/-- A non-Document target skips the unwrap branch. -/
theorem updateYamlFromStruct_nonDoc {n : YNode} (v : Val) (h : ¬n.kind = .document) :
    updateYamlFromStruct n v = updateStructBody n v := by
  simp only [YNode.kind] at h
  rw [updateYamlFromStruct]
  simp [h]

theorem docFree_of_kind_content {n : YNode} (hk : ¬n.kind = .document)
    (hc : docFreeL n.content = true) : docFree n = true := by
  cases n with
  | mk m c =>
      simp only [YNode.kind, YNode.meta_mk] at hk
      simp only [YNode.content_mk] at hc
      rw [docFree_eq]
      simp [hk, hc]

theorem coerceToMapping_kind (m : YNode) : (coerceToMapping m).kind = .mapping := by
  rw [coerceToMapping]
  split
  · simp
  · rename_i h
    simpa [YNode.kind] using h

theorem docFree_createOrReuseNode {parent : YNode} {i : Nat} {oc : List YNode} {bi : Int}
    (hdf : docFreeL oc = true) : docFree (createOrReuseNode parent i oc bi) = true := by
  cases hg : oc.get? i with
  | some c =>
      rw [createOrReuseNode_reuse hg]
      exact docFreeL_mem hdf (List.get?_mem hg)
  | none =>
      rw [createOrReuseNode]
      simp only [hg]
      cases hL : oc.getLast? with
      | some lastNode =>
          simp only [hL]
          exact docFree_of_kind_content (by simp [freshMeta]) rfl
      | none =>
          simp only [hL]
          exact docFree_of_kind_content (by simp [freshMeta]) rfl

theorem docFree_createOrReusePair {parent : YNode} {key : String} {oc : List YNode} {bi : Int}
    (hdf : docFreeL oc = true) :
    docFree (createOrReusePair parent key oc bi).1 = true ∧
    docFree (createOrReusePair parent key oc bi).2 = true := by
  cases hf : findNodes oc key with
  | some kv =>
      rcases kv with ⟨kn, vn⟩
      rw [createOrReusePair_found hf]
      obtain ⟨-, -, hknmem, hvnmem⟩ := findNodes_spec hf
      exact ⟨docFreeL_mem hdf hknmem, docFreeL_mem hdf hvnmem⟩
  | none =>
      rw [createOrReusePair]
      simp only [hf]
      cases hL : lastTwo oc with
      | some kv =>
          rcases kv with ⟨lk, lv⟩
          simp only [hL]
          exact ⟨docFree_of_kind_content (by simp [freshMeta]) rfl,
            docFree_of_kind_content (by simp [freshMeta]) rfl⟩
      | none =>
          simp only [hL]
          exact ⟨docFree_of_kind_content (by simp [freshMeta]) rfl,
            docFree_of_kind_content (by simp [freshMeta]) rfl⟩

mutual

theorem updateNode_total (n : YNode) (v : Val) (hdf : docFree n = true) :
    ∃ n', updateNode n v = .ok n' ∧ docFree n' = true := by
  cases v with
  | iface w =>
      rw [updateNode]
      exact updateNode_total n w hdf
  | nilIface => exact ⟨n, by rw [updateNode], hdf⟩
  | int z =>
      refine ⟨_, by rw [updateNode], ?_⟩
      exact docFree_of_kind_content (by simp) (by simpa using docFree_content hdf)
  | bool b =>
      refine ⟨_, by rw [updateNode], ?_⟩
      exact docFree_of_kind_content (by simp) (by simpa using docFree_content hdf)
  | str s =>
      refine ⟨_, by rw [updateNode], ?_⟩
      exact docFree_of_kind_content (by simp) (by simpa using docFree_content hdf)
  | other s =>
      refine ⟨_, by rw [updateNode], ?_⟩
      exact docFree_of_kind_content (by simp) (by simpa using docFree_content hdf)
  | record fields =>
      obtain ⟨m', hok, hdf'⟩ :=
        updateStructBody_total n (Val.record fields) (docFree_content hdf) rfl
      have huYFS := updateYamlFromStruct_nonDoc (Val.record fields) (docFree_kind hdf)
      refine ⟨.mk { m'.meta with style := n.style, column := n.column } m'.content, ?_, ?_⟩
      · rw [updateNode, huYFS, hok]
      · refine docFree_of_kind_content ?_ (by simpa using docFree_content hdf')
        have := docFree_kind hdf'
        simpa [YNode.kind] using this
  | seq elems =>
      obtain ⟨m', hok, hdf'⟩ := updateSequence_total n elems hdf
      refine ⟨.mk { m'.meta with style := n.style, column := n.column } m'.content, ?_, ?_⟩
      · rw [updateNode, hok]
      · refine docFree_of_kind_content ?_ (by simpa using docFree_content hdf')
        have := docFree_kind hdf'
        simpa [YNode.kind] using this
  | map skt entries =>
      obtain ⟨m', hok, hdf'⟩ := updateMapping_total n entries hdf
      refine ⟨.mk { m'.meta with style := n.style, column := n.column } m'.content, ?_, ?_⟩
      · rw [updateNode, hok]
      · refine docFree_of_kind_content ?_ (by simpa using docFree_content hdf')
        have := docFree_kind hdf'
        simpa [YNode.kind] using this
termination_by 4 * sizeOf v + 2

theorem updateStructBody_total (m : YNode) (v : Val) (hdf : docFreeL m.content = true)
    (hv : isRecordOrStringMap v = true) :
    ∃ m', updateStructBody m v = .ok m' ∧ docFree m' = true := by
  cases v with
  | record fields =>
      obtain ⟨m', hok, hdf'⟩ := updateFieldsLoop_total (coerceToMapping m) fields
        (by rw [coerceToMapping_content]; exact hdf)
      refine ⟨m', ?_, ?_⟩
      · simp only [updateStructBody]
        exact hok
      · refine docFree_of_kind_content ?_ hdf'
        have hmeta := updateFieldsLoop_meta hok
        have hkind : m'.kind = .mapping := by
          simp only [YNode.kind, hmeta]
          have := coerceToMapping_kind m
          simpa [YNode.kind] using this
        simp only [YNode.kind] at hkind
        simp [hkind]
  | map skt entries =>
      cases skt with
      | false => simp [isRecordOrStringMap] at hv
      | true =>
          obtain ⟨m', hok, hdf'⟩ := updateFieldsLoop_total (coerceToMapping m) entries
            (by rw [coerceToMapping_content]; exact hdf)
          refine ⟨m', ?_, ?_⟩
          · simp only [updateStructBody]
            exact hok
          · refine docFree_of_kind_content ?_ hdf'
            have hmeta := updateFieldsLoop_meta hok
            have hkind : m'.kind = .mapping := by
              simp only [YNode.kind, hmeta]
              have := coerceToMapping_kind m
              simpa [YNode.kind] using this
            simp only [YNode.kind] at hkind
            simp [hkind]
  | seq elems => simp [isRecordOrStringMap] at hv
  | int z => simp [isRecordOrStringMap] at hv
  | bool b => simp [isRecordOrStringMap] at hv
  | str s => simp [isRecordOrStringMap] at hv
  | other s => simp [isRecordOrStringMap] at hv
  | nilIface => simp [isRecordOrStringMap] at hv
  | iface w => simp [isRecordOrStringMap] at hv
termination_by 4 * sizeOf v

theorem updateFieldsLoop_total (m : YNode) (fields : List (String × Val))
    (hdf : docFreeL m.content = true) :
    ∃ m', updateFieldsLoop m fields = .ok m' ∧ docFreeL m'.content = true := by
  cases fields with
  | nil => exact ⟨m, by rw [updateFieldsLoop], hdf⟩
  | cons p rest =>
      rcases p with ⟨name, v⟩
      obtain ⟨m1, hf, hdf1⟩ := updateField_total m name v hdf
      obtain ⟨m', hrest, hdf'⟩ := updateFieldsLoop_total m1 rest hdf1
      refine ⟨m', ?_, hdf'⟩
      rw [updateFieldsLoop, hf]
      exact hrest
termination_by 4 * sizeOf fields + 3

theorem updateField_total (m : YNode) (name : String) (v : Val)
    (hdf : docFreeL m.content = true) :
    ∃ m', updateField m name v = .ok m' ∧ docFreeL m'.content = true := by
  cases hf : findNodes m.content name with
  | some kv =>
      rcases kv with ⟨kn, vn⟩
      have hvn : docFree vn = true := docFreeL_mem hdf (findNodes_spec hf).2.2.2
      obtain ⟨vn', hn, hdfvn'⟩ := updateNode_total vn v hvn
      refine ⟨.mk m.meta (replacePairValue m.content name vn'), ?_, ?_⟩
      · simp only [updateField, hf, hn]
      · simp only [YNode.content_mk]
        exact docFreeL_replacePairValue hdf hdfvn'
  | none =>
      obtain ⟨hk, hv2⟩ := docFree_newFieldPair m name
      obtain ⟨vn', hn, hdfvn'⟩ := updateNode_total (newFieldPair m name).2 v hv2
      refine ⟨.mk m.meta (m.content ++ [(newFieldPair m name).1, vn']), ?_, ?_⟩
      · simp only [updateField, hf, hn]
      · simp only [YNode.content_mk]
        rw [docFreeL_append]
        simp only [Bool.and_eq_true]
        refine ⟨hdf, ?_⟩
        rw [docFreeL_cons, docFreeL_cons]
        simp [hk, hdfvn', docFreeL]
termination_by 4 * sizeOf v + 3

theorem updateSequence_total (n : YNode) (elems : List Val) (hdf : docFree n = true) :
    ∃ n', updateSequence n elems = .ok n' ∧ docFree n' = true := by
  obtain ⟨out, hloop, hout⟩ := updateSeqLoop_total n n.content (contentBaseIndent n) 0 elems
    (docFree_content hdf)
  refine ⟨.mk { n.meta with kind := .sequence, tag := "!!seq" } out, ?_, ?_⟩
  · rw [updateSequence, hloop]
  · exact docFree_of_kind_content (by simp) (by simpa using hout)
termination_by 4 * sizeOf elems + 3

theorem updateSeqLoop_total (parent : YNode) (oc : List YNode) (bi : Int) (i : Nat)
    (elems : List Val) (hdf : docFreeL oc = true) :
    ∃ out, updateSeqLoop parent oc bi i elems = .ok out ∧ docFreeL out = true := by
  cases elems with
  | nil => exact ⟨[], by rw [updateSeqLoop], rfl⟩
  | cons v rest =>
      obtain ⟨c, hn, hc⟩ := updateNode_total (createOrReuseNode parent i oc bi) v
        (docFree_createOrReuseNode hdf)
      obtain ⟨cs, hrest, hcs⟩ := updateSeqLoop_total parent oc bi (i + 1) rest hdf
      refine ⟨c :: cs, ?_, ?_⟩
      · rw [updateSeqLoop, hn, hrest]
      · rw [docFreeL_cons]
        simp [hc, hcs]
termination_by 4 * sizeOf elems + 2

theorem updateMapping_total (n : YNode) (entries : List (String × Val))
    (hdf : docFree n = true) :
    ∃ n', updateMapping n entries = .ok n' ∧ docFree n' = true := by
  obtain ⟨out, hloop, hout⟩ := updateMapLoop_total n n.content (contentBaseIndent n) entries
    (docFree_content hdf)
  refine ⟨.mk { n.meta with kind := .mapping, tag := "!!map" } out, ?_, ?_⟩
  · rw [updateMapping, hloop]
  · exact docFree_of_kind_content (by simp) (by simpa using hout)
termination_by 4 * sizeOf entries + 3

theorem updateMapLoop_total (parent : YNode) (oc : List YNode) (bi : Int)
    (entries : List (String × Val)) (hdf : docFreeL oc = true) :
    ∃ out, updateMapLoop parent oc bi entries = .ok out ∧ docFreeL out = true := by
  cases entries with
  | nil => exact ⟨[], by rw [updateMapLoop], rfl⟩
  | cons p rest =>
      rcases p with ⟨k, v⟩
      obtain ⟨hkdf, hvdf⟩ := @docFree_createOrReusePair parent k oc bi hdf
      obtain ⟨vn', hn, hvn'⟩ := updateNode_total (createOrReusePair parent k oc bi).2 v hvdf
      obtain ⟨tail, hrest, htail⟩ := updateMapLoop_total parent oc bi rest hdf
      refine ⟨(createOrReusePair parent k oc bi).1 :: vn' :: tail, ?_, ?_⟩
      · rcases hcp : createOrReusePair parent k oc bi with ⟨kn, vn⟩
        rw [updateMapLoop, hcp]
        rw [hcp] at hn
        simp [hn, hrest]
      · rw [docFreeL_cons, docFreeL_cons]
        simp [hkdf, hvn', htail]
termination_by 4 * sizeOf entries + 2

end

mutual

theorem docFree_adjust (n : YNode) (off : Int) :
    docFree (adjustNodeColumns n off) = docFree n := by
  cases n with
  | mk m c =>
      rw [adjustNodeColumns, docFree_eq, docFree_eq]
      rw [docFreeL_adjust c off]

theorem docFreeL_adjust (l : List YNode) (off : Int) :
    docFreeL (adjustNodeColumnsL l off) = docFreeL l := by
  cases l with
  | nil => rw [adjustNodeColumnsL]
  | cons x xs =>
      rw [adjustNodeColumnsL, docFreeL_cons, docFreeL_cons, docFree_adjust, docFreeL_adjust]

end

/-- The body rejects exactly the values that are neither a Record nor
a string-keyed Mapping. -/
theorem updateStructBody_err (m : YNode) (v : Val) (hv : isRecordOrStringMap v = false) :
    ∃ e, updateStructBody m v = .error e := by
  cases v <;> simp [isRecordOrStringMap] at hv <;> simp [updateStructBody]
  · rename_i skt entries
    simp [hv]

/-- C7 (amended): with no Document node strictly inside the tree, the
merge errors exactly when the top-level target is a Document node whose
child count is not 1, or the supplied value is neither a Record nor a
Mapping whose Go key type is string.  In particular a sequence at the
root also errors, and a nested Mapping value with a non-string key type
does not. -/
theorem C7_error_characterization_amended {node : YNode} (v : Val)
    (hdf : docFreeL node.content = true) :
    (∃ e, updateYamlFromStruct node v = .error e) ↔
      ((node.kind = .document ∧ node.content.length ≠ 1) ∨ isRecordOrStringMap v = false) := by
  by_cases hk : node.kind = .document
  · rcases hc : node.content with _ | ⟨child, rest⟩
    · have heq : updateYamlFromStruct node v =
          .error "invalid YAML structure: document node should have exactly one child" := by
        rw [updateYamlFromStruct, if_pos hk, hc]
      rw [heq]
      constructor
      · intro _
        refine Or.inl ⟨hk, ?_⟩
        simp
      · intro _
        exact ⟨_, rfl⟩
    · rcases rest with _ | ⟨c2, rest2⟩
      · -- exactly one child
        have hchild : docFree child = true := by
          rw [hc, docFreeL_cons] at hdf
          simp only [Bool.and_eq_true] at hdf
          exact hdf.1
        have hadj : docFree (adjustNodeColumns
            (.mk { child.meta with column := 0 } child.content) child.meta.column) = true := by
          rw [docFree_adjust]
          refine docFree_of_kind_content ?_ ?_
          · simpa [YNode.kind] using docFree_kind hchild
          · simpa using docFree_content hchild
        have heq : updateYamlFromStruct node v =
            match updateStructBody (adjustNodeColumns
                (.mk { child.meta with column := 0 } child.content) child.meta.column) v with
            | .error e => .error e
            | .ok child' => .ok (.mk { node.meta with column := 0 } [child']) := by
          rw [updateYamlFromStruct, if_pos hk, hc]
        rw [heq]
        cases hsb : updateStructBody (adjustNodeColumns
            (.mk { child.meta with column := 0 } child.content) child.meta.column) v with
        | error e2 =>
            simp only [hsb]
            constructor
            · intro _
              right
              by_contra hgood
              rw [Bool.not_eq_false] at hgood
              obtain ⟨m', hok, -⟩ := updateStructBody_total _ v (docFree_content hadj) hgood
              rw [hok] at hsb
              exact Except.noConfusion hsb
            · intro _
              exact ⟨e2, rfl⟩
        | ok child' =>
            simp only [hsb]
            constructor
            · rintro ⟨e, he⟩
              exact Except.noConfusion he
            · rintro (⟨-, hlen⟩ | hbad)
              · simp at hlen
              · obtain ⟨e, he⟩ := updateStructBody_err (adjustNodeColumns
                  (.mk { child.meta with column := 0 } child.content) child.meta.column) v hbad
                rw [he] at hsb
                exact Except.noConfusion hsb
      · -- two or more children
        have heq : updateYamlFromStruct node v =
            .error "invalid YAML structure: document node should have exactly one child" := by
          rw [updateYamlFromStruct, if_pos hk, hc]
        rw [heq]
        constructor
        · intro _
          refine Or.inl ⟨hk, ?_⟩
          simp
        · intro _
          exact ⟨_, rfl⟩
  · rw [updateYamlFromStruct_nonDoc v hk]
    constructor
    · rintro ⟨e, he⟩
      right
      by_contra hgood
      rw [Bool.not_eq_false] at hgood
      obtain ⟨m', hok, -⟩ := updateStructBody_total node v hdf hgood
      rw [hok] at he
      exact Except.noConfusion he
    · rintro (⟨hdoc, -⟩ | hbad)
      · exact absurd hdoc hk
      · exact updateStructBody_err node v hbad

def scalarNode5 : YNode :=
  .mk { freshMeta with id := 2, kind := .scalar, tag := "!!int", value := "5" } []

/-- C7 counterexample: a nested Mapping value whose Go key type is not
string merges without error (updateMapping never checks the key type —
it stringifies), and a Sequence value at the Document root errors even
though the claim's error list only names Scalars there. -/
theorem C7_counterexample :
    updateNode scalarNode5 (Val.map false [("1", Val.int 2)]) =
      .ok (.mk { id := 2, kind := .mapping, style := 0, tag := "!!map", value := "5",
                 headComment := "", lineComment := "", footComment := "", line := 0, column := 0 }
        [.mk { id := 0, kind := .scalar, style := 0, tag := "!!str", value := "1",
               headComment := "", lineComment := "", footComment := "", line := 0, column := 2 } [],
         .mk { id := 0, kind := .scalar, style := 0, tag := "!!int", value := "2",
               headComment := "", lineComment := "", footComment := "", line := 0, column := 2 } []]) ∧
    updateYamlFromStruct (.mk { freshMeta with id := 1, kind := .document } [scalarNode5])
      (Val.seq []) =
      .error "data must be a struct, pointer to struct, or map[string]interface\x7b\x7d" := by
  constructor
  · simp only [updateNode, updateMapping, updateMapLoop, createOrReusePair, findNodes, lastTwo,
      scalarNode5, freshMeta, contentBaseIndent, intDecimal]
    simp
    decide
  · simp [updateYamlFromStruct, updateStructBody, scalarNode5, freshMeta, adjustNodeColumns,
      adjustNodeColumnsL, coerceToMapping]

def docNode5 : YNode := .mk { freshMeta with id := 1, kind := .document } [scalarNode5]

theorem C7_amended_witness :
    docFreeL docNode5.content = true ∧
    ((∃ e, updateYamlFromStruct docNode5 (Val.int 3) = .error e) ↔
      ((docNode5.kind = .document ∧ docNode5.content.length ≠ 1) ∨
       isRecordOrStringMap (Val.int 3) = false)) := by
  have hdf : docFreeL docNode5.content = true := by
    simp [docNode5, scalarNode5, freshMeta, docFreeL, docFree]
  exact ⟨hdf, C7_error_characterization_amended (Val.int 3) hdf⟩

/-! ### C8: column normalization -/

mutual

/-- The columns of every node of the tree, in preorder. -/
def columnsOf : YNode → List Int
  | .mk m c => m.column :: columnsOfL c

def columnsOfL : List YNode → List Int
  | [] => []
  | x :: xs => columnsOf x ++ columnsOfL xs

end

mutual

/-- adjustNodeColumns subtracts the offset from exactly the columns
strictly greater than it, position by position over the whole tree. -/
theorem columnsOf_adjust (n : YNode) (off : Int) :
    columnsOf (adjustNodeColumns n off) =
      (columnsOf n).map (fun c => if off < c then c - off else c) := by
  cases n with
  | mk m c =>
      rw [adjustNodeColumns, columnsOf, columnsOf]
      simp only [List.map_cons]
      rw [columnsOfL_adjust c off]

theorem columnsOfL_adjust (l : List YNode) (off : Int) :
    columnsOfL (adjustNodeColumnsL l off) =
      (columnsOfL l).map (fun c => if off < c then c - off else c) := by
  cases l with
  | nil => simp [adjustNodeColumnsL, columnsOfL]
  | cons x xs =>
      rw [adjustNodeColumnsL]
      rw [columnsOfL, columnsOfL]
      simp only [List.map_append]
      rw [columnsOf_adjust, columnsOfL_adjust]

end

/-- C8: after every successful top-level merge the Document node and
its first child have column 0, and the column-adjustment pass decreases
a descendant's column by the root offset exactly when the pre-adjust
column strictly exceeds the offset (columns less than or equal to it
are left unchanged, so none becomes negative). -/
theorem C8_column_normalization {root root' : YNode} {v : Val}
    (hok : updateYAMLTree root v = .ok root') :
    root'.column = 0 ∧
    (∀ c rest, root'.content = c :: rest → c.column = 0) ∧
    (∀ (n : YNode) (offset : Int),
       columnsOf (adjustNodeColumns n offset) =
         (columnsOf n).map (fun c => if offset < c then c - offset else c)) := by
  refine ⟨?_, ?_, fun n offset => columnsOf_adjust n offset⟩
  · rw [updateYAMLTree] at hok
    cases hu : updateYamlFromStruct root v with
    | error e =>
        rw [hu] at hok
        exact Except.noConfusion hok
    | ok root1 =>
        rw [hu] at hok
        simp only [Except.ok.injEq] at hok
        subst hok
        split <;> simp
  · intro c rest hcr
    rw [updateYAMLTree] at hok
    cases hu : updateYamlFromStruct root v with
    | error e =>
        rw [hu] at hok
        exact Except.noConfusion hok
    | ok root1 =>
        rw [hu] at hok
        simp only [Except.ok.injEq] at hok
        subst hok
        rcases hcont : root1.content with _ | ⟨c1, rest1⟩
        · simp only [YNode.content_mk, hcont] at hcr
          exact absurd hcr (by simp)
        · simp only [YNode.content_mk, hcont] at hcr
          simp only [List.cons.injEq] at hcr
          rw [← hcr.1]
          simp

/-! ### C1: comment preservation -/

mutual

/-- The (ghost id, head/line/foot comment) entries of every node of the
tree, in preorder. -/
def cEntries : YNode → List (Nat × String × String × String)
  | .mk m c => (m.id, m.headComment, m.lineComment, m.footComment) :: cEntriesL c

def cEntriesL : List YNode → List (Nat × String × String × String)
  | [] => []
  | x :: xs => cEntries x ++ cEntriesL xs

end

theorem cEntries_eq (m : YMeta) (c : List YNode) :
    cEntries (.mk m c) = (m.id, m.headComment, m.lineComment, m.footComment) :: cEntriesL c := by
  rw [cEntries]

theorem cEntriesL_nil : cEntriesL [] = [] := by rw [cEntriesL]

theorem cEntriesL_cons (x : YNode) (xs : List YNode) :
    cEntriesL (x :: xs) = cEntries x ++ cEntriesL xs := by rw [cEntriesL]

theorem cEntriesL_append : ∀ (l1 l2 : List YNode),
    cEntriesL (l1 ++ l2) = cEntriesL l1 ++ cEntriesL l2
  | [], l2 => by simp [cEntriesL_nil]
  | x :: xs, l2 => by
      simp only [List.cons_append, cEntriesL_cons, cEntriesL_append xs l2, List.append_assoc]

theorem mem_cEntriesL_of_mem : ∀ {l : List YNode} {x : YNode},
    x ∈ l → ∀ {p}, p ∈ cEntries x → p ∈ cEntriesL l
  | [], x, hx, p, hp => by simp at hx
  | y :: ys, x, hx, p, hp => by
      rw [cEntriesL_cons]
      rcases List.mem_cons.mp hx with h | h
      · subst h
        exact List.mem_append_left _ hp
      · exact List.mem_append_right _ (mem_cEntriesL_of_mem h hp)

mutual

theorem cEntries_adjust (n : YNode) (off : Int) :
    cEntries (adjustNodeColumns n off) = cEntries n := by
  cases n with
  | mk m c =>
      rw [adjustNodeColumns, cEntries_eq, cEntries_eq]
      rw [cEntriesL_adjust c off]

theorem cEntriesL_adjust (l : List YNode) (off : Int) :
    cEntriesL (adjustNodeColumnsL l off) = cEntriesL l := by
  cases l with
  | nil => rw [adjustNodeColumnsL]
  | cons x xs =>
      rw [adjustNodeColumnsL, cEntriesL_cons, cEntriesL_cons, cEntries_adjust, cEntriesL_adjust]

end

theorem cEntriesL_replace : ∀ {l : List YNode} {key : String} {w : YNode} {p},
    p ∈ cEntriesL (replacePairValue l key w) → p ∈ cEntriesL l ∨ p ∈ cEntries w
  | [], key, w, p, hp => Or.inl hp
  | [k], key, w, p, hp => Or.inl hp
  | k :: vn :: rest, key, w, p, hp => by
      rw [replacePairValue] at hp
      split at hp
      · rw [cEntriesL_cons, cEntriesL_cons] at hp ⊢
        rcases List.mem_append.mp hp with h | h
        · exact Or.inl (List.mem_append_left _ h)
        · rcases List.mem_append.mp h with h | h
          · exact Or.inr h
          · exact Or.inl (List.mem_append_right _ (List.mem_append_right _ h))
      · rw [cEntriesL_cons, cEntriesL_cons] at hp ⊢
        rcases List.mem_append.mp hp with h | h
        · exact Or.inl (List.mem_append_left _ h)
        · rcases List.mem_append.mp h with h | h
          · exact Or.inl (List.mem_append_right _ (List.mem_append_left _ h))
          · rcases cEntriesL_replace h with h | h
            · exact Or.inl (List.mem_append_right _ (List.mem_append_right _ h))
            · exact Or.inr h

theorem cEntries_mk_meta {m1 m2 : YMeta} {c : List YNode}
    (hid : m1.id = m2.id) (hh : m1.headComment = m2.headComment)
    (hl : m1.lineComment = m2.lineComment) (hf : m1.footComment = m2.footComment) :
    cEntries (.mk m1 c) = cEntries (.mk m2 c) := by
  rw [cEntries_eq, cEntries_eq, hid, hh, hl, hf]

theorem cEntries_coerce (m : YNode) : cEntries (coerceToMapping m) = cEntries m := by
  rw [coerceToMapping]
  split
  · cases m with
    | mk meta c =>
        simp only [YNode.meta_mk, YNode.content_mk]
        exact cEntries_mk_meta rfl rfl rfl rfl
  · rfl

theorem cEntries_newFieldPair_fst {m : YNode} {name : String}
    {p : Nat × String × String × String} (hp : p ∈ cEntries (newFieldPair m name).1) :
    p.1 = 0 := by
  rw [newFieldPair] at hp
  split at hp <;>
    (simp only [cEntries_eq, cEntriesL_nil] at hp
     rcases List.mem_singleton.mp hp with rfl
     rfl)

theorem cEntries_newFieldPair_snd {m : YNode} {name : String}
    {p : Nat × String × String × String} (hp : p ∈ cEntries (newFieldPair m name).2) :
    p.1 = 0 := by
  rw [newFieldPair] at hp
  split at hp <;>
    (simp only [cEntries_eq, cEntriesL_nil] at hp
     rcases List.mem_singleton.mp hp with rfl
     rfl)

theorem cEntries_createOrReuseNode {parent : YNode} {i : Nat} {oc : List YNode} {bi : Int}
    {p : Nat × String × String × String}
    (hp : p ∈ cEntries (createOrReuseNode parent i oc bi)) (hnz : p.1 ≠ 0) :
    p ∈ cEntriesL oc := by
  rcases hg : oc.get? i with _ | c
  · rw [createOrReuseNode] at hp
    simp only [hg] at hp
    split at hp <;>
      (simp only [cEntries_eq, cEntriesL_nil] at hp
       rcases List.mem_singleton.mp hp with rfl
       exact absurd rfl hnz)
  · rw [createOrReuseNode_reuse hg] at hp
    exact mem_cEntriesL_of_mem (List.get?_mem hg) hp

theorem cEntries_createOrReusePair_fst {parent : YNode} {key : String} {oc : List YNode}
    {bi : Int} {p : Nat × String × String × String}
    (hp : p ∈ cEntries (createOrReusePair parent key oc bi).1) (hnz : p.1 ≠ 0) :
    p ∈ cEntriesL oc := by
  rcases hf : findNodes oc key with _ | ⟨kn, vn⟩
  · rw [createOrReusePair] at hp
    simp only [hf] at hp
    rcases hL : lastTwo oc with _ | lastkv
    · simp only [hL] at hp
      simp only [cEntries_eq, cEntriesL_nil] at hp
      rcases List.mem_singleton.mp hp with rfl
      exact absurd rfl hnz
    · rcases lastkv with ⟨lk, lv⟩
      simp only [hL] at hp
      simp only [cEntries_eq, cEntriesL_nil] at hp
      rcases List.mem_singleton.mp hp with rfl
      exact absurd rfl hnz
  · rw [createOrReusePair_found hf] at hp
    exact mem_cEntriesL_of_mem (findNodes_spec hf).2.2.1 hp

theorem cEntries_createOrReusePair_snd {parent : YNode} {key : String} {oc : List YNode}
    {bi : Int} {p : Nat × String × String × String}
    (hp : p ∈ cEntries (createOrReusePair parent key oc bi).2) (hnz : p.1 ≠ 0) :
    p ∈ cEntriesL oc := by
  rcases hf : findNodes oc key with _ | ⟨kn, vn⟩
  · rw [createOrReusePair] at hp
    simp only [hf] at hp
    rcases hL : lastTwo oc with _ | lastkv
    · simp only [hL] at hp
      simp only [cEntries_eq, cEntriesL_nil] at hp
      rcases List.mem_singleton.mp hp with rfl
      exact absurd rfl hnz
    · rcases lastkv with ⟨lk, lv⟩
      simp only [hL] at hp
      simp only [cEntries_eq, cEntriesL_nil] at hp
      rcases List.mem_singleton.mp hp with rfl
      exact absurd rfl hnz
  · rw [createOrReusePair_found hf] at hp
    exact mem_cEntriesL_of_mem (findNodes_spec hf).2.2.2 hp

mutual

theorem updateNode_csub {n n' : YNode} (v : Val) (hok : updateNode n v = .ok n') :
    ∀ p ∈ cEntries n', p.1 ≠ 0 → p ∈ cEntries n := by
  cases v with
  | iface w =>
      rw [updateNode] at hok
      exact updateNode_csub w hok
  | nilIface =>
      rw [updateNode] at hok
      simp only [Except.ok.injEq] at hok
      subst hok
      exact fun p hp _ => hp
  | int z =>
      rw [updateNode] at hok
      simp only [Except.ok.injEq] at hok
      subst hok
      cases n with
      | mk m c => exact fun p hp _ => by simpa [cEntries_eq] using hp
  | bool b =>
      rw [updateNode] at hok
      simp only [Except.ok.injEq] at hok
      subst hok
      cases n with
      | mk m c => exact fun p hp _ => by simpa [cEntries_eq] using hp
  | str s =>
      rw [updateNode] at hok
      simp only [Except.ok.injEq] at hok
      subst hok
      cases n with
      | mk m c => exact fun p hp _ => by simpa [cEntries_eq] using hp
  | other s =>
      rw [updateNode] at hok
      simp only [Except.ok.injEq] at hok
      subst hok
      cases n with
      | mk m c => exact fun p hp _ => by simpa [cEntries_eq] using hp
  | record fields =>
      rw [updateNode] at hok
      cases hu : updateYamlFromStruct n (Val.record fields) with
      | error e =>
          simp only [hu] at hok
          exact Except.noConfusion hok
      | ok n1 =>
          simp only [hu, Except.ok.injEq] at hok
          subst hok
          intro p hp hnz
          refine updateYamlFromStruct_csub (Val.record fields) hu p ?_ hnz
          cases n1 with
          | mk m1 c1 => simpa [cEntries_eq] using hp
  | seq elems =>
      rw [updateNode] at hok
      cases hu : updateSequence n elems with
      | error e =>
          simp only [hu] at hok
          exact Except.noConfusion hok
      | ok n1 =>
          simp only [hu, Except.ok.injEq] at hok
          subst hok
          intro p hp hnz
          refine updateSequence_csub elems hu p ?_ hnz
          cases n1 with
          | mk m1 c1 => simpa [cEntries_eq] using hp
  | map skt entries =>
      rw [updateNode] at hok
      cases hu : updateMapping n entries with
      | error e =>
          simp only [hu] at hok
          exact Except.noConfusion hok
      | ok n1 =>
          simp only [hu, Except.ok.injEq] at hok
          subst hok
          intro p hp hnz
          refine updateMapping_csub entries hu p ?_ hnz
          cases n1 with
          | mk m1 c1 => simpa [cEntries_eq] using hp
termination_by 4 * sizeOf v + 2

theorem updateYamlFromStruct_csub {node n' : YNode} (v : Val)
    (hok : updateYamlFromStruct node v = .ok n') :
    ∀ p ∈ cEntries n', p.1 ≠ 0 → p ∈ cEntries node := by
  by_cases hk : node.kind = .document
  · rcases hc : node.content with _ | ⟨child, rest⟩
    · rw [updateYamlFromStruct, if_pos hk, hc] at hok
      exact Except.noConfusion hok
    · rcases rest with _ | ⟨c2, rest2⟩
      · rw [updateYamlFromStruct, if_pos hk, hc] at hok
        cases hsb : updateStructBody (adjustNodeColumns
            (.mk { child.meta with column := 0 } child.content) child.meta.column) v with
        | error e =>
            simp only [hsb] at hok
            exact Except.noConfusion hok
        | ok child' =>
            simp only [hsb, Except.ok.injEq] at hok
            subst hok
            intro p hp hnz
            have hadjust : cEntries (adjustNodeColumns
                (.mk { child.meta with column := 0 } child.content) child.meta.column) =
                cEntries child := by
              rw [cEntries_adjust]
              cases child with
              | mk cm cc => exact cEntries_mk_meta rfl rfl rfl rfl
            cases node with
            | mk nm nc =>
                simp only [YNode.content_mk] at hc
                subst hc
                rw [cEntries_eq] at hp ⊢
                rcases List.mem_cons.mp hp with h | h
                · exact List.mem_cons.mpr (Or.inl h)
                · rw [cEntriesL_cons, cEntriesL_nil, List.append_nil] at h
                  have hin := updateStructBody_csub v hsb p h hnz
                  rw [hadjust] at hin
                  refine List.mem_cons.mpr (Or.inr ?_)
                  rw [cEntriesL_cons, cEntriesL_nil, List.append_nil]
                  exact hin
      · rw [updateYamlFromStruct, if_pos hk, hc] at hok
        exact Except.noConfusion hok
  · rw [updateYamlFromStruct_nonDoc v hk] at hok
    exact updateStructBody_csub v hok
termination_by 4 * sizeOf v + 1

theorem updateStructBody_csub {m m' : YNode} (v : Val) (hok : updateStructBody m v = .ok m') :
    ∀ p ∈ cEntries m', p.1 ≠ 0 → p ∈ cEntries m := by
  cases v with
  | record fields =>
      simp only [updateStructBody] at hok
      intro p hp hnz
      have := updateFieldsLoop_csub fields hok p hp hnz
      rwa [cEntries_coerce] at this
  | map skt entries =>
      simp only [updateStructBody] at hok
      cases skt with
      | false =>
          rw [if_neg (by simp)] at hok
          exact Except.noConfusion hok
      | true =>
          rw [if_pos rfl] at hok
          intro p hp hnz
          have := updateFieldsLoop_csub entries hok p hp hnz
          rwa [cEntries_coerce] at this
  | int z =>
      simp only [updateStructBody] at hok
      exact Except.noConfusion hok
  | bool b =>
      simp only [updateStructBody] at hok
      exact Except.noConfusion hok
  | str s =>
      simp only [updateStructBody] at hok
      exact Except.noConfusion hok
  | other s =>
      simp only [updateStructBody] at hok
      exact Except.noConfusion hok
  | nilIface =>
      simp only [updateStructBody] at hok
      exact Except.noConfusion hok
  | iface w =>
      simp only [updateStructBody] at hok
      exact Except.noConfusion hok
  | seq elems =>
      simp only [updateStructBody] at hok
      exact Except.noConfusion hok
termination_by 4 * sizeOf v

theorem updateFieldsLoop_csub {m m' : YNode} :
    ∀ (fields : List (String × Val)),
    updateFieldsLoop m fields = .ok m' →
    ∀ p ∈ cEntries m', p.1 ≠ 0 → p ∈ cEntries m
  | [], hok => by
      rw [updateFieldsLoop] at hok
      simp only [Except.ok.injEq] at hok
      subst hok
      exact fun p hp _ => hp
  | (name, v) :: rest, hok => by
      rw [updateFieldsLoop] at hok
      cases hf : updateField m name v with
      | error e =>
          simp only [hf] at hok
          exact Except.noConfusion hok
      | ok m1 =>
          simp only [hf] at hok
          intro p hp hnz
          exact updateField_csub v hf p (updateFieldsLoop_csub rest hok p hp hnz) hnz
termination_by fields => 4 * sizeOf fields + 3

theorem updateField_csub {m m1 : YNode} {name : String} (v : Val)
    (hf : updateField m name v = .ok m1) :
    ∀ p ∈ cEntries m1, p.1 ≠ 0 → p ∈ cEntries m := by
  intro p hp hnz
  have hmeta := updateField_meta hf
  rcases updateField_content hf with ⟨kn, vn, vn', hfind, hnode, hc⟩ | ⟨vn', hfind, hnode, hc⟩
  · cases m1 with
    | mk mm1 c1 =>
        cases m with
        | mk mm c =>
            simp only [YNode.meta_mk] at hmeta
            subst hmeta
            simp only [YNode.content_mk] at hc
            subst hc
            simp only [YNode.content_mk] at hfind
            rw [cEntries_eq] at hp ⊢
            rcases List.mem_cons.mp hp with h | h
            · exact List.mem_cons.mpr (Or.inl h)
            · rcases cEntriesL_replace h with h | h
              · exact List.mem_cons.mpr (Or.inr h)
              · have hin := updateNode_csub v hnode p h hnz
                have hvnmem : vn ∈ c := (findNodes_spec hfind).2.2.2
                exact List.mem_cons.mpr (Or.inr (mem_cEntriesL_of_mem hvnmem hin))
  · cases m1 with
    | mk mm1 c1 =>
        cases m with
        | mk mm c =>
            simp only [YNode.meta_mk] at hmeta
            subst hmeta
            simp only [YNode.content_mk] at hc
            subst hc
            rw [cEntries_eq] at hp ⊢
            rcases List.mem_cons.mp hp with h | h
            · exact List.mem_cons.mpr (Or.inl h)
            · rw [cEntriesL_append, cEntriesL_cons, cEntriesL_cons, cEntriesL_nil,
                List.append_nil] at h
              rcases List.mem_append.mp h with h | h
              · exact List.mem_cons.mpr (Or.inr h)
              · rcases List.mem_append.mp h with h | h
                · exact absurd (cEntries_newFieldPair_fst h) hnz
                · have hin := updateNode_csub v hnode p h hnz
                  exact absurd (cEntries_newFieldPair_snd hin) hnz
termination_by 4 * sizeOf v + 3

theorem updateSequence_csub {n n' : YNode} (elems : List Val)
    (hok : updateSequence n elems = .ok n') :
    ∀ p ∈ cEntries n', p.1 ≠ 0 → p ∈ cEntries n := by
  rw [updateSequence] at hok
  cases hloop : updateSeqLoop n n.content (contentBaseIndent n) 0 elems with
  | error e =>
      simp only [hloop] at hok
      exact Except.noConfusion hok
  | ok out =>
      simp only [hloop, Except.ok.injEq] at hok
      subst hok
      intro p hp hnz
      cases n with
      | mk m c =>
          rw [cEntries_eq] at hp ⊢
          rcases List.mem_cons.mp hp with h | h
          · exact List.mem_cons.mpr (Or.inl h)
          · have hin := updateSeqLoop_csub elems hloop p h hnz
            simp only [YNode.content_mk] at hin
            exact List.mem_cons.mpr (Or.inr hin)
termination_by 4 * sizeOf elems + 3

theorem updateSeqLoop_csub {parent : YNode} {oc : List YNode} {bi : Int} :
    ∀ {i : Nat} (elems : List Val) {out : List YNode},
    updateSeqLoop parent oc bi i elems = .ok out →
    ∀ p ∈ cEntriesL out, p.1 ≠ 0 → p ∈ cEntriesL oc
  | i, [], out, hok => by
      rw [updateSeqLoop] at hok
      simp only [Except.ok.injEq] at hok
      subst hok
      intro p hp hnz
      rw [cEntriesL_nil] at hp
      simp at hp
  | i, v :: rest, out, hok => by
      rw [updateSeqLoop] at hok
      cases hn : updateNode (createOrReuseNode parent i oc bi) v with
      | error e =>
          simp only [hn] at hok
          exact Except.noConfusion hok
      | ok c =>
          simp only [hn] at hok
          cases htail : updateSeqLoop parent oc bi (i + 1) rest with
          | error e =>
              simp only [htail] at hok
              exact Except.noConfusion hok
          | ok cs =>
              simp only [htail, Except.ok.injEq] at hok
              subst hok
              intro p hp hnz
              rw [cEntriesL_cons] at hp
              rcases List.mem_append.mp hp with h | h
              · exact cEntries_createOrReuseNode (updateNode_csub v hn p h hnz) hnz
              · exact updateSeqLoop_csub rest htail p h hnz
termination_by i elems => 4 * sizeOf elems + 2

theorem updateMapping_csub {n n' : YNode} (entries : List (String × Val))
    (hok : updateMapping n entries = .ok n') :
    ∀ p ∈ cEntries n', p.1 ≠ 0 → p ∈ cEntries n := by
  rw [updateMapping] at hok
  cases hloop : updateMapLoop n n.content (contentBaseIndent n) entries with
  | error e =>
      simp only [hloop] at hok
      exact Except.noConfusion hok
  | ok out =>
      simp only [hloop, Except.ok.injEq] at hok
      subst hok
      intro p hp hnz
      cases n with
      | mk m c =>
          rw [cEntries_eq] at hp ⊢
          rcases List.mem_cons.mp hp with h | h
          · exact List.mem_cons.mpr (Or.inl h)
          · have hin := updateMapLoop_csub entries hloop p h hnz
            simp only [YNode.content_mk] at hin
            exact List.mem_cons.mpr (Or.inr hin)
termination_by 4 * sizeOf entries + 3

theorem updateMapLoop_csub {parent : YNode} {oc : List YNode} {bi : Int} :
    ∀ (entries : List (String × Val)) {out : List YNode},
    updateMapLoop parent oc bi entries = .ok out →
    ∀ p ∈ cEntriesL out, p.1 ≠ 0 → p ∈ cEntriesL oc
  | [], out, hok => by
      rw [updateMapLoop] at hok
      simp only [Except.ok.injEq] at hok
      subst hok
      intro p hp hnz
      rw [cEntriesL_nil] at hp
      simp at hp
  | (k, v) :: rest, out, hok => by
      rw [updateMapLoop] at hok
      rcases hcp : createOrReusePair parent k oc bi with ⟨kn, vn⟩
      rw [hcp] at hok
      cases hn : updateNode vn v with
      | error e =>
          simp only [hn] at hok
          exact Except.noConfusion hok
      | ok vn' =>
          simp only [hn] at hok
          cases htail : updateMapLoop parent oc bi rest with
          | error e =>
              simp only [htail] at hok
              exact Except.noConfusion hok
          | ok tail =>
              simp only [htail, Except.ok.injEq] at hok
              subst hok
              intro p hp hnz
              rw [cEntriesL_cons, cEntriesL_cons] at hp
              rcases List.mem_append.mp hp with h | h
              · refine @cEntries_createOrReusePair_fst parent k oc bi p ?_ hnz
                rw [hcp]
                exact h
              · rcases List.mem_append.mp h with h | h
                · have hin := updateNode_csub v hn p h hnz
                  refine @cEntries_createOrReusePair_snd parent k oc bi p ?_ hnz
                  rw [hcp]
                  exact hin
                · exact updateMapLoop_csub rest htail p h hnz
termination_by entries => 4 * sizeOf entries + 2

end

def seqChildX : YNode :=
  .mk { freshMeta with id := 5, kind := .scalar, tag := "!!int", value := "1", line := 2, column := 3 } []
def seqChildY : YNode :=
  .mk { freshMeta with id := 6, kind := .scalar, tag := "!!int", value := "2",
                       line := 3, column := 3, lineComment := "# keep me" } []
def keyNodeA : YNode :=
  .mk { freshMeta with id := 3, kind := .scalar, tag := "!!str", value := "a", line := 1, column := 1 } []
def seqNodeA : YNode :=
  .mk { freshMeta with id := 4, kind := .sequence, tag := "!!seq", line := 2, column := 1 }
    [seqChildX, seqChildY]
def nodeC1 : YNode :=
  .mk { freshMeta with id := 2, kind := .mapping, tag := "!!map", line := 1, column := 1 } [keyNodeA, seqNodeA]

/-- C1 counterexample: a Record whose field set equals (hence is a
superset of) the mapping's key set, but whose field value is a shorter
sequence, drops the original second sequence element together with its
line comment "# keep me" (ghost id 6) — so a superset Record merge does
not preserve every comment. -/
theorem C1_counterexample :
    (pairs nodeC1.content).map (fun p => p.1.value) = ["a"] ∧
    (updateStructBody nodeC1 (Val.record [("a", Val.seq [Val.int 7])])).map cEntries =
      .ok [(2, "", "", ""), (3, "", "", ""), (4, "", "", ""), (5, "", "", "")] ∧
    (6, "", "# keep me", "") ∈ cEntries nodeC1 ∧
    (6, "", "# keep me", "") ∉
      [((2 : Nat), ("" : String), ("" : String), ("" : String)), (3, "", "", ""),
       (4, "", "", ""), (5, "", "", "")] := by
  refine ⟨?_, ?_, ?_, by decide⟩
  · simp [nodeC1, keyNodeA, seqNodeA, pairs, freshMeta]
  · simp only [updateStructBody, coerceToMapping, updateFieldsLoop, updateField, findNodes,
      newFieldPair, firstTwo, updateNode, updateSequence, updateSeqLoop, createOrReuseNode,
      contentBaseIndent, replacePairValue, cEntries, cEntriesL, nodeC1, keyNodeA, seqNodeA,
      seqChildX, seqChildY, freshMeta, intDecimal, Except.map]
    simp
    decide
  · simp only [cEntries, cEntriesL, nodeC1, keyNodeA, seqNodeA, seqChildX, seqChildY, freshMeta]
    decide

/-- C1 (amended): every merge call preserves the merged node's own
head/line/foot comments, and every node that survives in the result
tree (every entry with a nonzero ghost id) carries exactly the comments
it had in the original tree; comments of nodes dropped by a nested
Mapping or Sequence replacement are lost with their nodes. -/
theorem C1_comment_preservation_amended {n n' : YNode} {v : Val}
    (hok : updateNode n v = .ok n') :
    n'.headComment = n.headComment ∧ n'.lineComment = n.lineComment ∧
    n'.footComment = n.footComment ∧
    (∀ p ∈ cEntries n', p.1 ≠ 0 → p ∈ cEntries n) := by
  obtain ⟨-, -, -, -, h1, h2, h3⟩ := updateNode_meta hok
  exact ⟨h1, h2, h3, updateNode_csub v hok⟩

/-! ### Witnesses -/

def C1wNode : YNode :=
  .mk { freshMeta with id := 2, kind := .scalar, tag := "!!int", value := intDecimal 9 } []

@[simp] theorem adjustNodeColumnsL_nil (off : Int) : adjustNodeColumnsL [] off = [] := by
  rw [adjustNodeColumnsL]

theorem C1_amended_witness :
    updateNode scalarNode5 (Val.int 9) = .ok C1wNode ∧
    (C1wNode.headComment = scalarNode5.headComment ∧
     C1wNode.lineComment = scalarNode5.lineComment ∧
     C1wNode.footComment = scalarNode5.footComment ∧
     (∀ p ∈ cEntries C1wNode, p.1 ≠ 0 → p ∈ cEntries scalarNode5)) := by
  have hok : updateNode scalarNode5 (Val.int 9) = .ok C1wNode := by
    simp only [updateNode, scalarNode5, C1wNode, freshMeta]
    simp
  exact ⟨hok, C1_comment_preservation_amended hok⟩

def C2wKeyB : YNode :=
  .mk { freshMeta with kind := .scalar, tag := "!!str", value := "b", column := 1 } []

def C2wValB : YNode :=
  .mk { freshMeta with kind := .scalar, tag := "!!int", value := intDecimal 1, column := 1 } []

def C2wRes : YNode :=
  .mk { freshMeta with id := 2, kind := .mapping, tag := "!!map", line := 1, column := 1 }
    [keyNodeA, seqNodeA, C2wKeyB, C2wValB]

theorem C2_witness :
    updateStructBody nodeC1 (Val.record [("b", Val.int 1)]) = .ok C2wRes ∧
    nodeC1.content.length % 2 = 0 ∧
    (keyNodeA, seqNodeA) ∈ pairs nodeC1.content ∧
    keyNodeA.value ∉ ([("b", Val.int 1)].map Prod.fst) ∧
    (keyNodeA, seqNodeA) ∈ pairs C2wRes.content := by
  have hok : updateStructBody nodeC1 (Val.record [("b", Val.int 1)]) = .ok C2wRes := by
    simp only [updateStructBody, coerceToMapping, updateFieldsLoop, updateField, findNodes,
      newFieldPair, firstTwo, updateNode, nodeC1, keyNodeA, seqNodeA, seqChildX, seqChildY,
      C2wRes, C2wKeyB, C2wValB, freshMeta]
    simp
  have heven : nodeC1.content.length % 2 = 0 := by simp [nodeC1]
  have hmem : (keyNodeA, seqNodeA) ∈ pairs nodeC1.content := by simp [nodeC1, pairs]
  have habs : keyNodeA.value ∉ ([("b", Val.int 1)].map Prod.fst) := by
    simp [keyNodeA, freshMeta]
  exact ⟨hok, heven, hmem, habs, C2_record_additive hok heven hmem habs⟩

def C3wRes : YNode :=
  .mk { freshMeta with id := 2, kind := .mapping, tag := "!!map", line := 1, column := 1 }
    [.mk { freshMeta with kind := .scalar, tag := "!!str", value := "b", line := 1, column := 1 } [],
     .mk { freshMeta with kind := .scalar, tag := "!!int", value := intDecimal 1, line := 2,
                          column := 1 } []]

theorem C3_witness :
    updateMapping nodeC1 [("b", Val.int 1)] = .ok C3wRes ∧
    ((pairs C3wRes.content).map (fun p => p.1.value) = [("b", Val.int 1)].map Prod.fst ∧
     ∀ p ∈ pairs nodeC1.content, p.1.value ∉ [("b", Val.int 1)].map Prod.fst →
       p ∉ pairs C3wRes.content) := by
  have hok : updateMapping nodeC1 [("b", Val.int 1)] = .ok C3wRes := by
    simp only [updateMapping, updateMapLoop, createOrReusePair, findNodes, lastTwo,
      contentBaseIndent, updateNode, nodeC1, keyNodeA, seqNodeA, seqChildX, seqChildY,
      C3wRes, freshMeta]
    simp
  exact ⟨hok, C3_mapping_key_replacement hok⟩

def C4wRes : YNode :=
  .mk { freshMeta with id := 4, kind := .sequence, tag := "!!seq", line := 2, column := 1 }
    [.mk { freshMeta with id := 5, kind := .scalar, tag := "!!int", value := intDecimal 7,
                          line := 2, column := 3 } [],
     .mk { freshMeta with id := 6, kind := .scalar, tag := "!!int", value := intDecimal 8,
                          line := 3, column := 3, lineComment := "# keep me" } [],
     .mk { freshMeta with kind := .scalar, tag := "!!int", value := intDecimal 9,
                          line := 3, column := 3 } []]

theorem C4_witness :
    updateSequence seqNodeA [Val.int 7, Val.int 8, Val.int 9] = .ok C4wRes ∧
    (C4wRes.content.length = [Val.int 7, Val.int 8, Val.int 9].length ∧
     (∀ i v c, [Val.int 7, Val.int 8, Val.int 9].get? i = some v →
        seqNodeA.content.get? i = some c →
        ∃ c', C4wRes.content.get? i = some c' ∧ updateNode c v = .ok c' ∧ c'.id = c.id) ∧
     (∀ i v, [Val.int 7, Val.int 8, Val.int 9].get? i = some v →
        seqNodeA.content.length ≤ i →
        ∃ c', C4wRes.content.get? i = some c' ∧ c'.id = 0) ∧
     ((∀ c ∈ seqNodeA.content, c.id ≠ 0) →
        (C4wRes.content.map YNode.id).count 0 =
          [Val.int 7, Val.int 8, Val.int 9].length - seqNodeA.content.length) ∧
     (∀ j c, seqNodeA.content.get? j = some c →
        [Val.int 7, Val.int 8, Val.int 9].length ≤ j →
        (seqNodeA.content.map YNode.id).Nodup → (∀ d ∈ seqNodeA.content, d.id ≠ 0) →
        c.id ∉ C4wRes.content.map YNode.id)) := by
  have hok : updateSequence seqNodeA [Val.int 7, Val.int 8, Val.int 9] = .ok C4wRes := by
    simp only [updateSequence, updateSeqLoop, createOrReuseNode, contentBaseIndent,
      updateNode, seqNodeA, seqChildX, seqChildY, C4wRes, freshMeta]
    simp
  exact ⟨hok, C4_sequence_positional_reuse hok⟩

def C6wRes : YNode :=
  .mk { freshMeta with id := 1, kind := .mapping, tag := "!!map" }
    [.mk { freshMeta with kind := .scalar, tag := "!!str", value := "x", column := 2 } [],
     .mk { freshMeta with kind := .scalar, tag := "!!int", value := intDecimal 1, column := 2 } []]

theorem C6_amended_witness :
    updateField emptyMapNode "x" (Val.int 1) = .ok C6wRes ∧
    findNodes emptyMapNode.content "x" = none ∧
    emptyMapNode.content.length % 2 = 0 ∧
    (∃ kn vn', C6wRes.content = emptyMapNode.content ++ [kn, vn'] ∧
      kn.kind = .scalar ∧ kn.tag = "!!str" ∧ kn.value = "x" ∧
      ((emptyMapNode.content = [] ∧ kn.column = emptyMapNode.column + 2 ∧
        vn'.column = emptyMapNode.column + 2) ∨
       (∃ c0 c1 rest, emptyMapNode.content = c0 :: c1 :: rest ∧
          kn.style = c0.style ∧ kn.column = c0.column ∧
          vn'.style = c1.style ∧ vn'.column = c1.column))) := by
  have hok : updateField emptyMapNode "x" (Val.int 1) = .ok C6wRes := by
    simp only [updateField, findNodes, newFieldPair, firstTwo, updateNode, emptyMapNode,
      C6wRes, freshMeta]
    simp
  have hnew : findNodes emptyMapNode.content "x" = none := by simp [emptyMapNode, findNodes]
  have heven : emptyMapNode.content.length % 2 = 0 := by simp [emptyMapNode]
  exact ⟨hok, hnew, heven, C6_new_pair_style_amended hok hnew heven⟩

def C8wRes : YNode :=
  .mk { freshMeta with id := 1, kind := .document }
    [.mk { freshMeta with id := 2, kind := .mapping, tag := "!!map", value := "5" } []]

theorem C8_witness :
    updateYAMLTree docNode5 (Val.record []) = .ok C8wRes ∧
    (C8wRes.column = 0 ∧
     (∀ c rest, C8wRes.content = c :: rest → c.column = 0) ∧
     (∀ (n : YNode) (offset : Int),
        columnsOf (adjustNodeColumns n offset) =
          (columnsOf n).map (fun c => if offset < c then c - offset else c))) := by
  have hok : updateYAMLTree docNode5 (Val.record []) = .ok C8wRes := by
    simp only [updateYAMLTree, updateYamlFromStruct, updateStructBody, coerceToMapping,
      updateFieldsLoop, adjustNodeColumns, adjustNodeColumnsL, docNode5, scalarNode5,
      C8wRes, freshMeta]
    simp
  exact ⟨hok, C8_column_normalization hok⟩

theorem C10_witness :
    updateMapping nodeC1 [("a", Val.nilIface)] = .ok nodeC1 ∧
    ("a", Val.nilIface) ∈ [("a", Val.nilIface)] ∧
    findNodes nodeC1.content "a" = some (keyNodeA, seqNodeA) ∧
    (updateNode seqNodeA Val.nilIface = .ok seqNodeA ∧
     (keyNodeA, seqNodeA) ∈ pairs nodeC1.content) := by
  have hok : updateMapping nodeC1 [("a", Val.nilIface)] = .ok nodeC1 := by
    simp only [updateMapping, updateMapLoop, createOrReusePair, findNodes, contentBaseIndent,
      updateNode, nodeC1, keyNodeA, seqNodeA, seqChildX, seqChildY, freshMeta]
    simp
  have hmem : ("a", Val.nilIface) ∈ [("a", Val.nilIface)] := by simp
  have hfind : findNodes nodeC1.content "a" = some (keyNodeA, seqNodeA) := by
    simp [nodeC1, findNodes, keyNodeA, freshMeta]
  exact ⟨hok, hmem, hfind, C10_nil_interface_noop hok hmem hfind⟩
